import Mathlib

/-!
# Verification of the CLIP byte-level BPE tokenizer

Shallow embedding of `mindformers/models/clip/clip_tokenizer.py`:
the byte-to-unicode codec (`bytes_to_unicode`), the pair-rank table and
vocabulary built by `TempTokenizer.__init__`, the BPE merge engine
(`TempTokenizer.tokenize_alg` with its `flag_dict` cache), `encode`/`decode`,
text normalization (`basic_clean`, `whitespace_clean`), the pretokenization
regex of `ClipTokenizer.__init__`, and `ClipTokenizer.tokenize`.

Python dictionaries are modelled as association lists with explicit
insertion (`dictInsert`) and construction (`dictOf`) mirroring Python's
"last write wins" semantics; fallible `d[k]` lookups are `Option`-valued.
-/

set_option linter.unusedSectionVars false

namespace ClipTok

/-! ## Python dictionaries as association lists -/

/-- Python `d[k]` lookup.  In a built dict each key occurs at most once, so the
first matching entry is the entry. -/
def dictGet {α β : Type} [BEq α] (l : List (α × β)) (k : α) : Option β :=
  (l.find? (fun e => e.1 == k)).map (fun e => e.2)

/-- One Python `d[k] = v` assignment: update the entry in place if the key
exists, else append a new entry (Python dicts preserve insertion order). -/
def dictInsert {α β : Type} [BEq α] : List (α × β) → α → β → List (α × β)
  | [], k, v => [(k, v)]
  | e :: es, k, v => if e.1 == k then (k, v) :: es else e :: dictInsert es k v

/-- Python `dict(pairs)` / a dict comprehension: insert the pairs in order;
for a repeated key the later value wins. -/
def dictOf {α β : Type} [BEq α] (l : List (α × β)) : List (α × β) :=
  l.foldl (fun m e => dictInsert m e.1 e.2) []

/-- The value stored for `k` after building a dict from `l`: the value of the
last entry of `l` whose key is `k`. -/
def lastWins {α β : Type} [BEq α] (l : List (α × β)) (k : α) : Option β :=
  (l.reverse.find? (fun e => e.1 == k)).map (fun e => e.2)

/-- The keys of an association list. -/
def keysOf {α β : Type} (l : List (α × β)) : List α := l.map Prod.fst

section DictLemmas

variable {α β : Type} [BEq α] [LawfulBEq α]

theorem dictGet_nil (k : α) : dictGet ([] : List (α × β)) k = none := rfl

theorem dictGet_cons (e : α × β) (es : List (α × β)) (k : α) :
    dictGet (e :: es) k = if e.1 == k then some e.2 else dictGet es k := by
  simp only [dictGet, List.find?]
  by_cases h : e.1 == k <;> simp [h]

theorem dictGet_dictInsert (l : List (α × β)) (k : α) (v : β) (q : α) :
    dictGet (dictInsert l k v) q = if q == k then some v else dictGet l q := by
  induction l with
  | nil =>
    by_cases h : q = k
    · subst h; simp [dictInsert, dictGet_cons]
    · have h1 : (q == k) = false := by simp [h]
      have h2 : (k == q) = false := by simp [Ne.symm h]
      simp [dictInsert, dictGet_cons, dictGet_nil, h1, h2]
  | cons e es ih =>
    by_cases hek : e.1 = k
    · have hb : (e.1 == k) = true := by simp [hek]
      by_cases hq : q = k
      · subst hq
        simp [dictInsert, hb, dictGet_cons]
      · have h1 : (q == k) = false := by simp [hq]
        have h2 : (k == q) = false := by simp [Ne.symm hq]
        have h3 : (e.1 == q) = false := by simp [hek, hq, Ne.symm]
        simp [dictInsert, hb, dictGet_cons, h1, h2, h3]
    · have hb : (e.1 == k) = false := by simp [hek]
      by_cases hq : q = k
      · subst hq
        have h3 : (e.1 == q) = false := by simp [hek]
        simp [dictInsert, hb, dictGet_cons, h3, ih]
      · have h1 : (q == k) = false := by simp [hq]
        simp [dictInsert, hb, dictGet_cons, ih, h1]

theorem dictOf_append_single (l : List (α × β)) (e : α × β) :
    dictOf (l ++ [e]) = dictInsert (dictOf l) e.1 e.2 := by
  simp [dictOf, List.foldl_append]

theorem lastWins_append_single (l : List (α × β)) (k : α) (v : β) (q : α) :
    lastWins (l ++ [(k, v)]) q = if q == k then some v else lastWins l q := by
  simp only [lastWins, List.reverse_append, List.reverse_cons, List.reverse_nil,
    List.nil_append, List.cons_append, List.find?]
  by_cases h : q = k
  · subst h; simp
  · have h1 : (q == k) = false := by simp [h]
    have h2 : (k == q) = false := by simp [Ne.symm h]
    simp [h1, h2]

/-- A built Python dict returns, for each key, the value of the last pair with
that key. -/
theorem dictGet_dictOf (l : List (α × β)) (k : α) :
    dictGet (dictOf l) k = lastWins l k := by
  induction l using List.reverseRecOn with
  | nil => simp [dictOf, lastWins, dictGet_nil]
  | append_singleton es e ih =>
    rw [dictOf_append_single, dictGet_dictInsert, ih]
    cases e with
    | mk k₀ v₀ => rw [lastWins_append_single]

theorem lastWins_eq_none_iff (l : List (α × β)) (k : α) :
    lastWins l k = none ↔ k ∉ keysOf l := by
  unfold lastWins keysOf
  rw [Option.map_eq_none', List.find?_eq_none]
  constructor
  · intro h hk
    obtain ⟨e, he, hfst⟩ := List.mem_map.mp hk
    exact (h e (List.mem_reverse.mpr he)) (by simp [hfst])
  · intro h e he hb
    exact h (List.mem_map.mpr ⟨e, List.mem_reverse.mp he, eq_of_beq hb⟩)

theorem dictGet_isSome_of_mem_keys (l : List (α × β)) (k : α)
    (hmem : k ∈ keysOf l) : (dictGet (dictOf l) k).isSome := by
  rw [dictGet_dictOf]
  cases hl : lastWins l k with
  | none => exact absurd hmem ((lastWins_eq_none_iff l k).mp hl)
  | some v => rfl

theorem dictGet_some_mem (l : List (α × β)) (k : α) (v : β)
    (h : dictGet l k = some v) : (k, v) ∈ l := by
  induction l with
  | nil => simp [dictGet_nil] at h
  | cons e es ih =>
    rw [dictGet_cons] at h
    by_cases hk : e.1 = k
    · have hb : (e.1 == k) = true := by simp [hk]
      simp only [hb, if_pos] at h
      have he : e = (k, v) := by
        cases e with
        | mk a b =>
          simp only at hk
          simp only [Option.some.injEq] at h
          rw [hk, h]
      simp [he]
    · have hb : (e.1 == k) = false := by simp [hk]
      simp only [hb, Bool.false_eq_true, if_neg] at h
      exact List.mem_cons_of_mem _ (ih h)

theorem mem_of_mem_dictInsert (l : List (α × β)) (k : α) (v : β) (e : α × β)
    (h : e ∈ dictInsert l k v) : e ∈ l ∨ e = (k, v) := by
  induction l with
  | nil => simp [dictInsert] at h; simp [h]
  | cons e₀ es ih =>
    by_cases h₀ : e₀.1 = k
    · have hb : (e₀.1 == k) = true := by simp [h₀]
      rw [show dictInsert (e₀ :: es) k v = (k, v) :: es by simp [dictInsert, hb]] at h
      rcases List.mem_cons.mp h with hh | hh
      · right; exact hh
      · left; exact List.mem_cons_of_mem _ hh
    · have hb : (e₀.1 == k) = false := by simp [h₀]
      rw [show dictInsert (e₀ :: es) k v = e₀ :: dictInsert es k v by
        simp [dictInsert, hb]] at h
      rcases List.mem_cons.mp h with hh | hh
      · left; simp [hh]
      · rcases ih hh with h' | h'
        · left; exact List.mem_cons_of_mem _ h'
        · right; exact h'

theorem mem_of_mem_dictOf (l : List (α × β)) (e : α × β)
    (h : e ∈ dictOf l) : e ∈ l := by
  induction l using List.reverseRecOn with
  | nil => simp [dictOf] at h
  | append_singleton es e₀ ih =>
    rw [dictOf_append_single] at h
    rcases mem_of_mem_dictInsert _ _ _ _ h with h' | h'
    · exact List.mem_append_left _ (ih h')
    · cases e₀; simp_all

theorem keysOf_dictInsert (l : List (α × β)) (k : α) (v : β) :
    keysOf (dictInsert l k v) = if k ∈ keysOf l then keysOf l else keysOf l ++ [k] := by
  induction l with
  | nil => simp [dictInsert, keysOf]
  | cons e es ih =>
    by_cases h₀ : e.1 = k
    · have hb : (e.1 == k) = true := by simp [h₀]
      simp [dictInsert, hb, keysOf, h₀]
    · have hb : (e.1 == k) = false := by simp [h₀]
      have hne : ¬ k = e.1 := fun hh => h₀ hh.symm
      rw [show dictInsert (e :: es) k v = e :: dictInsert es k v by simp [dictInsert, hb]]
      simp only [keysOf, List.map_cons]
      simp only [keysOf] at ih
      rw [ih]
      by_cases hmem : k ∈ List.map Prod.fst es
      · simp [hmem, hne]
      · simp [hmem, hne]

theorem nodup_keysOf_dictInsert (l : List (α × β)) (k : α) (v : β)
    (h : (keysOf l).Nodup) : (keysOf (dictInsert l k v)).Nodup := by
  rw [keysOf_dictInsert]
  by_cases hk : k ∈ keysOf l
  · simpa [hk] using h
  · simp only [hk, if_neg, if_false]
    refine List.Nodup.append h (by simp) ?_
    intro a ha hb
    simp only [List.mem_singleton] at hb
    subst hb
    exact hk ha

/-- A built Python dict has pairwise distinct keys. -/
theorem nodup_keysOf_dictOf (l : List (α × β)) : (keysOf (dictOf l)).Nodup := by
  induction l using List.reverseRecOn with
  | nil => simp [dictOf, keysOf]
  | append_singleton es e ih =>
    rw [dictOf_append_single]
    exact nodup_keysOf_dictInsert _ _ _ ih

theorem dictInsert_of_not_mem_keys (l : List (α × β)) (k : α) (v : β)
    (h : k ∉ keysOf l) : dictInsert l k v = l ++ [(k, v)] := by
  induction l with
  | nil => simp [dictInsert]
  | cons e es ih =>
    have h₁ : (e.1 == k) = false := by
      have hne : ¬ e.1 = k := by
        intro hh; exact h (by simp [keysOf, hh])
      simp [hne]
    have h₂ : k ∉ keysOf es := by
      intro hmem
      exact h (by simp only [keysOf, List.map_cons, List.mem_cons]; right; exact hmem)
    simp [dictInsert, h₁, ih h₂]

/-- Building a dict from pairs with pairwise distinct keys keeps the list as is. -/
theorem dictOf_of_nodup_keys (l : List (α × β)) (h : (keysOf l).Nodup) :
    dictOf l = l := by
  induction l using List.reverseRecOn with
  | nil => simp [dictOf]
  | append_singleton es e ih =>
    have h2 := List.nodup_append.mp
      (by simpa only [keysOf, List.map_append, List.map_cons, List.map_nil] using h)
    have hes : (keysOf es).Nodup := h2.1
    have hk : e.1 ∉ keysOf es := by
      intro hmem
      exact h2.2.2 hmem (by simp)
    rw [dictOf_append_single, ih hes, dictInsert_of_not_mem_keys _ _ _ hk]

theorem dictGet_of_mem_of_nodup (l : List (α × β)) (k : α) (v : β)
    (hmem : (k, v) ∈ l) (h : (keysOf l).Nodup) : dictGet l k = some v := by
  induction l with
  | nil => simp at hmem
  | cons e es ih =>
    have h2 := List.nodup_cons.mp (by simpa only [keysOf, List.map_cons] using h)
    rcases List.mem_cons.mp hmem with he | he
    · rw [dictGet_cons, ← he]
      simp
    · have hk : k ∈ List.map Prod.fst es := List.mem_map.mpr ⟨(k, v), he, rfl⟩
      have h₁ : (e.1 == k) = false := by
        have hne : ¬ e.1 = k := by
          intro hh
          exact h2.1 (hh ▸ hk)
        simp [hne]
      rw [dictGet_cons]
      simp only [h₁, Bool.false_eq_true, if_neg]
      exact ih he h2.2

end DictLemmas

/-! ## Basic list and character utilities

Text is modelled as `List Char` (a Python `str` is a sequence of unicode
characters); bytes are `Nat` values below 256. -/

/-- `l.dropWhile p` never gets longer. -/
theorem dropWhile_len_le {α : Type} (p : α → Bool) (l : List α) :
    (l.dropWhile p).length ≤ l.length := by
  induction l with
  | nil => simp
  | cons c cs ih =>
    by_cases h : p c
    · simp only [List.dropWhile_cons, h, if_pos]
      exact Nat.le_succ_of_le ih
    · simp [List.dropWhile_cons, h]

/-- Left-to-right fallible map, modelling a Python comprehension whose body
may raise `KeyError` (`none` = the first lookup that fails aborts). -/
def mapOpt {α β : Type} (f : α → Option β) : List α → Option (List β)
  | [] => some []
  | a :: as =>
    match f a, mapOpt f as with
    | some b, some bs => some (b :: bs)
    | _, _ => none

theorem mapOpt_cons {α β : Type} (f : α → Option β) (a : α) (as : List α) :
    mapOpt f (a :: as) = (match f a, mapOpt f as with
      | some b, some bs => some (b :: bs)
      | _, _ => none) := rfl

theorem mapOpt_isSome {α β : Type} (f : α → Option β) (l : List α)
    (h : ∀ a ∈ l, (f a).isSome) : (mapOpt f l).isSome := by
  induction l with
  | nil => simp [mapOpt]
  | cons a as ih =>
    have ha := h a (by simp)
    have has : (mapOpt f as).isSome := ih (fun x hx => h x (List.mem_cons_of_mem _ hx))
    cases hfa : f a with
    | none => rw [hfa] at ha; simp at ha
    | some b =>
      cases hrest : mapOpt f as with
      | none => rw [hrest] at has; simp at has
      | some bs => simp [mapOpt, hfa, hrest]

theorem mapOpt_forall₂ {α β : Type} (f : α → Option β) (l : List α) (out : List β)
    (h : mapOpt f l = some out) : List.Forall₂ (fun a b => f a = some b) l out := by
  induction l generalizing out with
  | nil => simp [mapOpt] at h; subst h; exact List.Forall₂.nil
  | cons a as ih =>
    simp only [mapOpt] at h
    cases hfa : f a with
    | none => rw [hfa] at h; simp at h
    | some b =>
      cases hrest : mapOpt f as with
      | none => rw [hfa, hrest] at h; simp at h
      | some bs =>
        rw [hfa, hrest] at h
        simp only [Option.some.injEq] at h
        subst h
        exact List.Forall₂.cons hfa (ih bs hrest)

theorem mapOpt_mem_of_mem {α β : Type} (f : α → Option β) (l : List α) (out : List β)
    (h : mapOpt f l = some out) (b : β) (hb : b ∈ out) : ∃ a ∈ l, f a = some b := by
  induction l generalizing out with
  | nil => simp [mapOpt] at h; subst h; simp at hb
  | cons a as ih =>
    simp only [mapOpt] at h
    cases hfa : f a with
    | none => rw [hfa] at h; simp at h
    | some b₀ =>
      cases hrest : mapOpt f as with
      | none => rw [hfa, hrest] at h; simp at h
      | some bs =>
        rw [hfa, hrest] at h
        simp only [Option.some.injEq] at h
        subst h
        rcases List.mem_cons.mp hb with hb | hb
        · exact ⟨a, by simp, hb ▸ hfa⟩
        · obtain ⟨a₀, ha₀, hfa₀⟩ := ih bs hrest hb
          exact ⟨a₀, List.mem_cons_of_mem _ ha₀, hfa₀⟩

/-- The apostrophe character (written via its code point 39). -/
def apos : Char := Char.ofNat 39

/-- Python `\s` on the ASCII range (the claims only exercise ASCII text;
unicode space code points are outside the embedded fragment). -/
def pyIsSpace (c : Char) : Bool :=
  c == ' ' || c == '\t' || c == '\n' || c == '\r' || c == Char.ofNat 11 || c == Char.ofNat 12

/-- Does the second list start with the first? -/
def startsWithSeq : List Char → List Char → Bool
  | [], _ => true
  | _ :: _, [] => false
  | p :: ps, c :: cs => p == c && startsWithSeq ps cs

/-- Python `str.replace(pat, repl)`, fuel-indexed (the fuel is the text
length, which bounds the number of scanning steps): replace every
non-overlapping occurrence, scanning left to right.  (For the empty
pattern Python interleaves `repl` everywhere; the embedding only ever
replaces the nonempty `'</w>'`, and returns the text unchanged in that
unused case.) -/
def replaceAllF (pat repl : List Char) : Nat → List Char → List Char
  | 0, l => l
  | _ + 1, [] => []
  | fuel + 1, c :: cs =>
    if 1 ≤ pat.length ∧ startsWithSeq pat (c :: cs) = true then
      repl ++ replaceAllF pat repl fuel ((c :: cs).drop pat.length)
    else
      c :: replaceAllF pat repl fuel cs

def replaceAll (pat repl : List Char) (l : List Char) : List Char :=
  replaceAllF pat repl l.length l

theorem replaceAllF_nil (pat repl : List Char) (fuel : Nat) :
    replaceAllF pat repl fuel [] = [] := by
  cases fuel with
  | zero => rfl
  | succ f => rfl

theorem replaceAllF_fuel_irrel (pat repl : List Char) :
    ∀ f1 f2 l, l.length ≤ f1 → l.length ≤ f2 →
      replaceAllF pat repl f1 l = replaceAllF pat repl f2 l := by
  intro f1
  induction f1 with
  | zero =>
    intro f2 l h1 h2
    have : l = [] := List.length_eq_zero.mp (Nat.le_zero.mp h1)
    subst this
    rw [replaceAllF_nil, replaceAllF_nil]
  | succ f ih =>
    intro f2 l h1 h2
    cases f2 with
    | zero =>
      have : l = [] := List.length_eq_zero.mp (Nat.le_zero.mp h2)
      subst this
      rw [replaceAllF_nil, replaceAllF_nil]
    | succ g =>
      cases l with
      | nil => rw [replaceAllF_nil, replaceAllF_nil]
      | cons c cs =>
        show (if 1 ≤ pat.length ∧ startsWithSeq pat (c :: cs) = true then
            repl ++ replaceAllF pat repl f ((c :: cs).drop pat.length)
          else c :: replaceAllF pat repl f cs) =
          (if 1 ≤ pat.length ∧ startsWithSeq pat (c :: cs) = true then
            repl ++ replaceAllF pat repl g ((c :: cs).drop pat.length)
          else c :: replaceAllF pat repl g cs)
        by_cases hc : 1 ≤ pat.length ∧ startsWithSeq pat (c :: cs) = true
        · rw [if_pos hc, if_pos hc,
            ih g ((c :: cs).drop pat.length)
              (by simp only [List.length_drop, List.length_cons] at h1 ⊢; omega)
              (by simp only [List.length_drop, List.length_cons] at h2 ⊢; omega)]
        · rw [if_neg hc, if_neg hc,
            ih g cs (by simp only [List.length_cons] at h1; omega)
              (by simp only [List.length_cons] at h2; omega)]

/-- `replaceAll` satisfies the natural scanning equation. -/
theorem replaceAll_cons (pat repl : List Char) (c : Char) (cs : List Char) :
    replaceAll pat repl (c :: cs) =
      if 1 ≤ pat.length ∧ startsWithSeq pat (c :: cs) = true then
        repl ++ replaceAll pat repl ((c :: cs).drop pat.length)
      else c :: replaceAll pat repl cs := by
  show (if 1 ≤ pat.length ∧ startsWithSeq pat (c :: cs) = true then
      repl ++ replaceAllF pat repl cs.length ((c :: cs).drop pat.length)
    else c :: replaceAllF pat repl cs.length cs) = _
  by_cases hc : 1 ≤ pat.length ∧ startsWithSeq pat (c :: cs) = true
  · rw [if_pos hc, if_pos hc]
    unfold replaceAll
    rw [replaceAllF_fuel_irrel pat repl cs.length ((c :: cs).drop pat.length).length
      ((c :: cs).drop pat.length)
      (by simp only [List.length_drop, List.length_cons]; omega) (Nat.le_refl _)]
  · rw [if_neg hc, if_neg hc]
    rfl

/-! ## UTF-8 -/

/-- UTF-8 encoding of one character (Python `str.encode('utf-8')`). -/
def utf8EncodeChar (c : Char) : List Nat :=
  let n := c.toNat
  if n < 128 then [n]
  else if n < 2048 then [192 + n / 64, 128 + n % 64]
  else if n < 65536 then [224 + n / 4096, 128 + (n / 64) % 64, 128 + n % 64]
  else [240 + n / 262144, 128 + (n / 4096) % 64, 128 + (n / 64) % 64, 128 + n % 64]

def utf8Encode (l : List Char) : List Nat := (l.map utf8EncodeChar).flatten

/-- U+FFFD, substituted for malformed byte sequences. -/
def replacementChar : Char := Char.ofNat 65533

/-- Continuation byte 10xxxxxx. -/
def isCont (b : Nat) : Bool := 128 ≤ b && b ≤ 191

/-- One UTF-8 decoding step at lead byte `b`, parameterized by the
continuation `dec` decoding the bytes after the consumed sequence:
ASCII passes through; 2-, 3- and 4-byte sequences are decoded when their
continuation bytes are valid (surrogate encodings rejected); anything
malformed yields U+FFFD and resynchronizes. -/
def utf8Step (dec : List Nat → List Char) (b : Nat) (rest : List Nat) : List Char :=
  if b < 128 then Char.ofNat b :: dec rest
  else if 194 ≤ b && b ≤ 223 then
    match rest with
    | [] => [replacementChar]
    | b2 :: rest2 =>
      if isCont b2 then Char.ofNat ((b - 192) * 64 + (b2 - 128)) :: dec rest2
      else replacementChar :: dec (b2 :: rest2)
  else if 224 ≤ b && b ≤ 239 then
    match rest with
    | b2 :: b3 :: rest3 =>
      if isCont b2 && isCont b3 &&
          !(55296 ≤ (b - 224) * 4096 + (b2 - 128) * 64 + (b3 - 128) &&
            (b - 224) * 4096 + (b2 - 128) * 64 + (b3 - 128) ≤ 57343) then
        Char.ofNat ((b - 224) * 4096 + (b2 - 128) * 64 + (b3 - 128)) :: dec rest3
      else replacementChar :: dec (b2 :: b3 :: rest3)
    | _ => [replacementChar]
  else if 240 ≤ b && b ≤ 244 then
    match rest with
    | b2 :: b3 :: b4 :: rest4 =>
      if isCont b2 && isCont b3 && isCont b4 then
        Char.ofNat ((b - 240) * 262144 + (b2 - 128) * 4096 + (b3 - 128) * 64 + (b4 - 128)) ::
          dec rest4
      else replacementChar :: dec (b2 :: b3 :: b4 :: rest4)
    | _ => [replacementChar]
  else replacementChar :: dec rest

/-- UTF-8 decoding with `errors="replace"` (Python `bytes.decode('utf-8',
errors="replace")`), fuel-indexed — every step consumes at least one byte,
so the byte count is enough fuel: total; malformed sequences become
U+FFFD.  The exact number of U+FFFD characters per malformed run is
irrelevant to the claims (only totality and the ASCII fragment are
used). -/
def utf8DecodeReplaceF : Nat → List Nat → List Char
  | 0, _ => []
  | _ + 1, [] => []
  | fuel + 1, b :: rest => utf8Step (utf8DecodeReplaceF fuel) b rest

def utf8DecodeReplace (l : List Nat) : List Char := utf8DecodeReplaceF l.length l

theorem utf8Step_lt (dec : List Nat → List Char) (b : Nat) (rest : List Nat)
    (h : b < 128) : utf8Step dec b rest = Char.ofNat b :: dec rest := by
  unfold utf8Step
  rw [if_pos h]

/-! ## The byte-to-unicode codec (`bytes_to_unicode`) -/

/-- The three printable ranges `ord("!")..ord("~")`, `ord("¡")..ord("¬")`,
`ord("®")..ord("ÿ")` that map to themselves. -/
def printableBytes : List Nat :=
  (List.range' 33 94) ++ (List.range' 161 12) ++ (List.range' 174 82)

/-- The `bytes_to_unicode` construction, on code points as `Nat`: printable
bytes map to themselves; the remaining bytes are appended in increasing
order with fresh code points `256 + num`. -/
def bytesToUnicodeNat : List (Nat × Nat) :=
  ((List.range 256).foldl
    (fun (acc : List (Nat × Nat) × Nat) (item : Nat) =>
      if item ∈ printableBytes then acc
      else (acc.1 ++ [(item, 256 + acc.2)], acc.2 + 1))
    (printableBytes.map (fun b => (b, b)), 0)).1

/-- `self.byte_encoder = bytes_to_unicode()`: byte value to character.
The keys 0..255 are pairwise distinct by construction, so the Python dict
is this association list itself. -/
def byte_encoder : List (Nat × Char) :=
  bytesToUnicodeNat.map (fun p => (p.1, Char.ofNat p.2))

/-- `self.byte_decoder = {v: k for k, v in self.byte_encoder.items()}`. -/
def byte_decoder : List (Char × Nat) :=
  dictOf (byte_encoder.map (fun p => (p.2, p.1)))

/-- The character alphabet of the codec (`bytes_to_unicode().values()`). -/
def byteChars : List Char := byte_encoder.map (fun p => p.2)

set_option maxRecDepth 100000 in
set_option maxHeartbeats 4000000 in
/-- The images of `bytes_to_unicode` are pairwise distinct, so the inverse
dict keeps every pair. -/
theorem byteChars_nodup : byteChars.Nodup := by decide

theorem byte_decoder_eq : byte_decoder = byte_encoder.map (fun p => (p.2, p.1)) := by
  apply dictOf_of_nodup_keys
  have hk : keysOf (byte_encoder.map (fun p => (p.2, p.1))) = byteChars := by
    simp only [keysOf, byteChars, List.map_map]
    rfl
  rw [hk]
  exact byteChars_nodup

theorem dictGet_isSome_of_key_mem {α β : Type} [BEq α] [LawfulBEq α]
    (l : List (α × β)) (k : α) (h : k ∈ keysOf l) : (dictGet l k).isSome := by
  induction l with
  | nil => simp [keysOf] at h
  | cons e es ih =>
    rw [dictGet_cons]
    by_cases hk : e.1 = k
    · simp [hk]
    · have hb : (e.1 == k) = false := by simp [hk]
      simp only [hb, Bool.false_eq_true, if_neg]
      apply ih
      simp only [keysOf, List.map_cons, List.mem_cons] at h
      rcases h with h | h
      · exact absurd h.symm hk
      · exact h

set_option maxRecDepth 100000 in
/-- On the printable ASCII range the codec is the identity. -/
theorem byte_encoder_ascii_all : (List.range' 33 94).all
    (fun n => dictGet byte_encoder n == some (Char.ofNat n)) = true := by decide

theorem byte_encoder_ascii (n : Nat) (h1 : 33 ≤ n) (h2 : n ≤ 126) :
    dictGet byte_encoder n = some (Char.ofNat n) := by
  have hmem : n ∈ List.range' 33 94 := by
    rw [List.mem_range'_1]
    omega
  have := List.all_eq_true.mp byte_encoder_ascii_all n hmem
  simpa using this

set_option maxRecDepth 100000 in
set_option maxHeartbeats 1000000 in
theorem byte_decoder_ascii_all : (List.range' 33 94).all
    (fun n => dictGet (byte_encoder.map (fun p => (p.2, p.1))) (Char.ofNat n) == some n)
    = true := by decide

theorem byte_decoder_ascii (n : Nat) (h1 : 33 ≤ n) (h2 : n ≤ 126) :
    dictGet byte_decoder (Char.ofNat n) = some n := by
  rw [byte_decoder_eq]
  have hmem : n ∈ List.range' 33 94 := by
    rw [List.mem_range'_1]
    omega
  have := List.all_eq_true.mp byte_decoder_ascii_all n hmem
  simpa using this

theorem byteChar_decodable (c : Char) (h : c ∈ byteChars) :
    (dictGet byte_decoder c).isSome := by
  rw [byte_decoder_eq]
  apply dictGet_isSome_of_key_mem
  have hk : keysOf (byte_encoder.map (fun p => (p.2, p.1))) = byteChars := by
    simp only [keysOf, List.map_map]
    rfl
  rw [hk]
  exact h

theorem mem_byteChars_of_byte_encoder (b : Nat) (c : Char)
    (h : dictGet byte_encoder b = some c) : c ∈ byteChars :=
  List.mem_map.mpr ⟨(b, c), dictGet_some_mem _ _ _ h, rfl⟩

/-! ## The BPE merge engine (`TempTokenizer.tokenize_alg`)

A word is a list of symbols; a symbol is a `List Char` (a Python string). -/

/-- The end-of-word marker appended to the last character of a token. -/
def endw : List Char := '<' :: '/' :: 'w' :: '>' :: []

/-- `get_pairs`: the adjacent symbol pairs of a word.  The Python function
builds a `set`; only membership and minimal-rank selection are ever used, so
the duplicate-free-ness of the set is irrelevant (ranks are attached to the
pair itself). -/
def getPairs (w : List (List Char)) : List (List Char × List Char) :=
  w.zip w.tail

/-- `word = tuple(input_tk[:-1]) + (input_tk[-1] + '</w>',)`: one symbol per
character, the last one suffixed with the end-of-word marker.  On the empty
token Python raises `IndexError`; the claims only quantify over nonempty
tokens (the pretokenizer never emits an empty one), and `[]` is returned
in that unreachable case. -/
def initWord : List Char → List (List Char)
  | [] => []
  | [c] => [c :: endw]
  | c :: cs => [c] :: initWord cs

/-- `min(pairs, key=lambda pair: self.bpe_ranks.get(pair, float('inf')))`,
fused with the `bigram not in self.bpe_ranks` termination test: the ranked
pair of minimal rank together with its rank, or `none` when no candidate
pair is ranked (all ranks "infinite").  Ranks in a built rank table are
pairwise distinct (positions of a list), so minimality determines the pair. -/
def bestPair (rk : List Char × List Char → Option Nat) :
    List (List Char × List Char) → Option ((List Char × List Char) × Nat)
  | [] => none
  | p :: ps =>
    match rk p, bestPair rk ps with
    | none, r => r
    | some n, none => some (p, n)
    | some n, some (q, m) => if n ≤ m then some (p, n) else some (q, m)

theorem bestPair_sound (rk : List Char × List Char → Option Nat)
    (ps : List (List Char × List Char)) (p : List Char × List Char) (n : Nat)
    (h : bestPair rk ps = some (p, n)) : p ∈ ps ∧ rk p = some n := by
  induction ps with
  | nil => simp [bestPair] at h
  | cons q qs ih =>
    simp only [bestPair] at h
    cases hq : rk q with
    | none =>
      rw [hq] at h
      obtain ⟨hmem, hrk⟩ := ih h
      exact ⟨List.mem_cons_of_mem _ hmem, hrk⟩
    | some m =>
      rw [hq] at h
      cases hrest : bestPair rk qs with
      | none =>
        rw [hrest] at h
        simp only [Option.some.injEq, Prod.mk.injEq] at h
        exact ⟨by simp [h.1], h.1 ▸ h.2 ▸ hq⟩
      | some r =>
        rw [hrest] at h
        cases r with
        | mk q₀ m₀ =>
          have hred : (if m ≤ m₀ then some (q, m) else some (q₀, m₀)) =
              some (p, n) := h
          by_cases hle : m ≤ m₀
          · rw [if_pos hle] at hred
            have heq := Option.some.inj hred
            have h1 : q = p := congrArg Prod.fst heq
            have h2 : m = n := congrArg Prod.snd heq
            exact ⟨by simp [h1], h1 ▸ h2 ▸ hq⟩
          · rw [if_neg hle] at hred
            have heq := Option.some.inj hred
            obtain ⟨hmem, hrk⟩ := ih (hrest.trans (congrArg some heq))
            exact ⟨List.mem_cons_of_mem _ hmem, hrk⟩

/-- The inner rewrite loop of `tokenize_alg` (`while i < len(word)` with
`j = word.index(first, i)`): the `index` call scans to the next occurrence
of `first`, copying the skipped symbols unchanged — the `x ≠ a` branch
below; at an occurrence, a following `second` is merged and scanning
resumes two symbols later, otherwise the symbol is copied and scanning
resumes at the next one. -/
def mergePass (a b : List Char) : List (List Char) → List (List Char)
  | [] => []
  | x :: rest =>
    if x = a then
      match rest with
      | [] => [x]
      | y :: rest2 =>
        if y = b then (a ++ b) :: mergePass a b rest2
        else x :: mergePass a b (y :: rest2)
    else x :: mergePass a b rest

/-- The rewrite step as the spec words it: merge every non-overlapping
left-to-right occurrence of the pair in one pass; after a merge at
position `i`, scanning resumes at `i + 2`. -/
def mergeOnePass (a b : List Char) : List (List Char) → List (List Char)
  | x :: y :: rest =>
    if x = a ∧ y = b then (a ++ b) :: mergeOnePass a b rest
    else x :: mergeOnePass a b (y :: rest)
  | w => w

/-- The source's `index`-scanning rewrite loop computes exactly the spec's
one-pass greedy merge. -/
theorem mergePass_eq_mergeOnePass (a b : List Char) (w : List (List Char)) :
    mergePass a b w = mergeOnePass a b w := by
  generalize hn : w.length = n
  induction n using Nat.strong_induction_on generalizing w with
  | _ n ih =>
    match w with
    | [] => rfl
    | [x] =>
      by_cases hx : x = a <;> simp [mergePass, mergeOnePass, hx]
    | x :: y :: rest =>
      subst hn
      have e1 : mergePass a b (x :: y :: rest) =
          if x = a then
            (if y = b then (a ++ b) :: mergePass a b rest
             else x :: mergePass a b (y :: rest))
          else x :: mergePass a b (y :: rest) := rfl
      have e2 : mergeOnePass a b (x :: y :: rest) =
          if x = a ∧ y = b then (a ++ b) :: mergeOnePass a b rest
          else x :: mergeOnePass a b (y :: rest) := rfl
      rw [e1, e2]
      by_cases hx : x = a
      · by_cases hy : y = b
        · rw [if_pos hx, if_pos hy, if_pos ⟨hx, hy⟩,
            ih rest.length (by simp only [List.length_cons]; omega) rest rfl]
        · rw [if_pos hx, if_neg hy, if_neg (fun hc => hy hc.2),
            ih (y :: rest).length (by simp only [List.length_cons]; omega) (y :: rest) rfl]
      · rw [if_neg hx, if_neg (fun hc => hx hc.1),
          ih (y :: rest).length (by simp only [List.length_cons]; omega) (y :: rest) rfl]

theorem mergeOnePass_length_le (a b : List Char) (w : List (List Char)) :
    (mergeOnePass a b w).length ≤ w.length := by
  generalize hn : w.length = n
  induction n using Nat.strong_induction_on generalizing w with
  | _ n ih =>
    match w with
    | [] => subst hn; simp [mergeOnePass]
    | [x] => subst hn; simp [mergeOnePass]
    | x :: y :: rest =>
      subst hn
      have e2 : mergeOnePass a b (x :: y :: rest) =
          if x = a ∧ y = b then (a ++ b) :: mergeOnePass a b rest
          else x :: mergeOnePass a b (y :: rest) := rfl
      rw [e2]
      by_cases hc : x = a ∧ y = b
      · rw [if_pos hc]
        have := ih rest.length (by simp only [List.length_cons]; omega) rest rfl
        simp only [List.length_cons]
        omega
      · rw [if_neg hc]
        have := ih (y :: rest).length (by simp only [List.length_cons]; omega) (y :: rest) rfl
        simp only [List.length_cons] at this ⊢
        omega

/-- When the merged pair actually occurs adjacently, the pass strictly
shrinks the word — the termination measure of the outer `while True`. -/
theorem mergeOnePass_length_lt (a b : List Char) (w : List (List Char))
    (h : (a, b) ∈ getPairs w) : (mergeOnePass a b w).length < w.length := by
  generalize hn : w.length = n
  induction n using Nat.strong_induction_on generalizing w with
  | _ n ih =>
    match w with
    | [] => simp [getPairs] at h
    | [x] => simp [getPairs] at h
    | x :: y :: rest =>
      subst hn
      have hpairs : getPairs (x :: y :: rest) = (x, y) :: getPairs (y :: rest) := by
        simp [getPairs]
      have e2 : mergeOnePass a b (x :: y :: rest) =
          if x = a ∧ y = b then (a ++ b) :: mergeOnePass a b rest
          else x :: mergeOnePass a b (y :: rest) := rfl
      rw [e2]
      by_cases hc : x = a ∧ y = b
      · rw [if_pos hc]
        have := mergeOnePass_length_le a b rest
        simp only [List.length_cons]
        omega
      · rw [hpairs] at h
        rcases List.mem_cons.mp h with hxy | hxy
        · exact absurd ⟨congrArg Prod.fst hxy.symm, congrArg Prod.snd hxy.symm⟩ hc
        · rw [if_neg hc]
          have := ih (y :: rest).length (by simp only [List.length_cons]; omega) (y :: rest) hxy rfl
          simp only [List.length_cons] at this ⊢
          omega

theorem mergePass_length_lt (a b : List Char) (w : List (List Char))
    (h : (a, b) ∈ getPairs w) : (mergePass a b w).length < w.length := by
  rw [mergePass_eq_mergeOnePass]
  exact mergeOnePass_length_lt a b w h

/-- The `while True` loop of `tokenize_alg`, indexed by a fuel bound on the
number of iterations: pick the minimally ranked candidate pair (`break`
when none is ranked), rewrite the word in one pass, `break` when a single
symbol remains, else recompute the pairs and repeat.  Each productive
iteration strictly shrinks the word (`mergePass_length_lt`), so
`word.length` fuel always suffices (`bpeLoopF_fuel_irrel`,
`bpeLoop_unfold`): the fuel never runs out on the path the source takes. -/
def bpeLoopF (rk : List Char × List Char → Option Nat) :
    Nat → List (List Char) → List (List Char)
  | 0, word => word
  | fuel + 1, word =>
    match bestPair rk (getPairs word) with
    | none => word
    | some (p, _) =>
      if (mergePass p.1 p.2 word).length = 1 then mergePass p.1 p.2 word
      else bpeLoopF rk fuel (mergePass p.1 p.2 word)

/-- The merge loop of the source. -/
def bpeLoop (rk : List Char × List Char → Option Nat) (word : List (List Char)) :
    List (List Char) :=
  bpeLoopF rk word.length word

theorem bpeLoopF_nil (rk : List Char × List Char → Option Nat) (fuel : Nat) :
    bpeLoopF rk fuel [] = [] := by
  cases fuel with
  | zero => rfl
  | succ f => rfl

/-- Any fuel at least `word.length` computes the same result: the loop
reaches its exit condition first. -/
theorem bpeLoopF_fuel_irrel (rk : List Char × List Char → Option Nat) :
    ∀ f1 f2 word, word.length ≤ f1 → word.length ≤ f2 →
      bpeLoopF rk f1 word = bpeLoopF rk f2 word := by
  intro f1
  induction f1 with
  | zero =>
    intro f2 word h1 h2
    have : word = [] := List.length_eq_zero.mp (Nat.le_zero.mp h1)
    subst this
    rw [bpeLoopF_nil, bpeLoopF_nil]
  | succ f ih =>
    intro f2 word h1 h2
    cases f2 with
    | zero =>
      have : word = [] := List.length_eq_zero.mp (Nat.le_zero.mp h2)
      subst this
      rw [bpeLoopF_nil, bpeLoopF_nil]
    | succ g =>
      show bpeLoopF rk (f + 1) word = bpeLoopF rk (g + 1) word
      cases hb : bestPair rk (getPairs word) with
      | none => simp only [bpeLoopF, hb]
      | some r =>
        cases r with
        | mk p m =>
          have hlt : (mergePass p.1 p.2 word).length < word.length := by
            exact mergePass_length_lt p.1 p.2 word (bestPair_sound rk _ p m hb).1
          simp only [bpeLoopF, hb]
          by_cases h1 : (mergePass p.1 p.2 word).length = 1
          · rw [if_pos h1, if_pos h1]
          · rw [if_neg h1, if_neg h1]
            exact ih g (mergePass p.1 p.2 word) (by omega) (by omega)

/-- `bpeLoop` satisfies the defining equation of the source's `while True`
loop. -/
theorem bpeLoop_unfold (rk : List Char × List Char → Option Nat)
    (word : List (List Char)) : bpeLoop rk word =
    match bestPair rk (getPairs word) with
    | none => word
    | some (p, _) =>
      if (mergePass p.1 p.2 word).length = 1 then mergePass p.1 p.2 word
      else bpeLoop rk (mergePass p.1 p.2 word) := by
  cases hw : word with
  | nil =>
    rw [show getPairs [] = [] from rfl]
    rw [show bestPair rk [] = none from rfl]
    exact bpeLoopF_nil rk 0
  | cons s ss =>
    rw [← hw]
    have hlen : word.length = ss.length + 1 := by rw [hw]; rfl
    show bpeLoopF rk word.length word = _
    rw [hlen]
    cases hb : bestPair rk (getPairs word) with
    | none => simp only [bpeLoopF, hb]
    | some r =>
      cases r with
      | mk p m =>
        have hlt : (mergePass p.1 p.2 word).length < word.length := by
          exact mergePass_length_lt p.1 p.2 word (bestPair_sound rk _ p m hb).1
        simp only [bpeLoopF, hb]
        by_cases h1 : (mergePass p.1 p.2 word).length = 1
        · rw [if_pos h1, if_pos h1]
        · rw [if_neg h1, if_neg h1]
          exact bpeLoopF_fuel_irrel rk ss.length (mergePass p.1 p.2 word).length
            (mergePass p.1 p.2 word) (by omega) (by omega)

/-- The merge loop as the spec words it, built on the spec's one-pass
rewrite; used to state claim C1. -/
def bpeLoopSpecF (rk : List Char × List Char → Option Nat) :
    Nat → List (List Char) → List (List Char)
  | 0, word => word
  | fuel + 1, word =>
    match bestPair rk (getPairs word) with
    | none => word
    | some (p, _) =>
      if (mergeOnePass p.1 p.2 word).length = 1 then mergeOnePass p.1 p.2 word
      else bpeLoopSpecF rk fuel (mergeOnePass p.1 p.2 word)

def bpeLoopSpec (rk : List Char × List Char → Option Nat)
    (word : List (List Char)) : List (List Char) :=
  bpeLoopSpecF rk word.length word

theorem bpeLoopF_eq_spec (rk : List Char × List Char → Option Nat) :
    ∀ fuel word, bpeLoopF rk fuel word = bpeLoopSpecF rk fuel word := by
  intro fuel
  induction fuel with
  | zero => intro word; rfl
  | succ f ih =>
    intro word
    cases hb : bestPair rk (getPairs word) with
    | none => simp only [bpeLoopF, bpeLoopSpecF, hb]
    | some r =>
      cases r with
      | mk p m =>
        simp only [bpeLoopF, bpeLoopSpecF, hb, mergePass_eq_mergeOnePass, ih]

theorem bpeLoop_eq_bpeLoopSpec (rk : List Char × List Char → Option Nat)
    (word : List (List Char)) : bpeLoop rk word = bpeLoopSpec rk word :=
  bpeLoopF_eq_spec rk word.length word

/-- The pure merge computation of `tokenize_alg` on a cache miss: build the
word, return `input_tk + '</w>'` when there are no pairs, else run the merge
loop and join the final word with the space separator. -/
def tokenizeCore (rk : List Char × List Char → Option Nat) (tk : List Char) :
    List Char :=
  if getPairs (initWord tk) = [] then tk ++ endw
  else List.intercalate [' '] (bpeLoop rk (initWord tk))

/-- The final word of the merge engine, before joining (what `' '.join`
receives). -/
def bpeWord (rk : List Char × List Char → Option Nat) (tk : List Char) :
    List (List Char) :=
  if getPairs (initWord tk) = [] then [tk ++ endw]
  else bpeLoop rk (initWord tk)

theorem tokenizeCore_eq_join_bpeWord (rk : List Char × List Char → Option Nat)
    (tk : List Char) : tokenizeCore rk tk = List.intercalate [' '] (bpeWord rk tk) := by
  unfold tokenizeCore bpeWord
  by_cases h : getPairs (initWord tk) = []
  · rw [if_pos h, if_pos h]
    simp [List.intercalate]
  · rw [if_neg h, if_neg h]

/-- `tokenize_alg` with its `flag_dict` state: a hit returns the stored
string unchanged; a miss computes the merge and stores the result — except
on the no-pairs shortcut (`if not pairs: return input_tk+'</w>'`), which
returns without storing. -/
def tokenizeAlg (flags : List (List Char × List Char))
    (rk : List Char × List Char → Option Nat) (tk : List Char) :
    List Char × List (List Char × List Char) :=
  match dictGet flags tk with
  | some v => (v, flags)
  | none =>
    if getPairs (initWord tk) = [] then (tk ++ endw, flags)
    else
      (List.intercalate [' '] (bpeLoop rk (initWord tk)),
       dictInsert flags tk (List.intercalate [' '] (bpeLoop rk (initWord tk))))

theorem tokenizeAlg_miss (flags : List (List Char × List Char))
    (rk : List Char × List Char → Option Nat) (tk : List Char)
    (h : dictGet flags tk = none) : (tokenizeAlg flags rk tk).1 = tokenizeCore rk tk := by
  unfold tokenizeAlg tokenizeCore
  rw [h]
  by_cases hp : getPairs (initWord tk) = []
  · rw [if_pos hp, if_pos hp]
  · rw [if_neg hp, if_neg hp]

/-! ## The constructor (`TempTokenizer.__init__`) -/

/-- `'<|startoftext|>'` as a character list. -/
def sot : List Char := '<' :: '|' :: 's' :: 't' :: 'a' :: 'r' :: 't' :: 'o' :: 'f' ::
  't' :: 'e' :: 'x' :: 't' :: '|' :: '>' :: []

/-- `'<|endoftext|>'` as a character list. -/
def eot : List Char := '<' :: '|' :: 'e' :: 'n' :: 'd' :: 'o' :: 'f' :: 't' :: 'e' ::
  'x' :: 't' :: '|' :: '>' :: []

/-- The initial `flag_dict`, mapping each special token to itself. -/
def flags0 : List (List Char × List Char) := [(sot, sot), (eot, eot)]

/-- Python `str.split()` with no separator, fuel-indexed (the fuel is the
length, bounding the scanning steps): split on runs of whitespace,
discarding empties. -/
def pySplitWsF : Nat → List Char → List (List Char)
  | 0, _ => []
  | _ + 1, [] => []
  | fuel + 1, c :: cs =>
    if pyIsSpace c then pySplitWsF fuel cs
    else (c :: cs.takeWhile (fun d => !pyIsSpace d)) ::
      pySplitWsF fuel (cs.dropWhile (fun d => !pyIsSpace d))

def pySplitWs (l : List Char) : List (List Char) := pySplitWsF l.length l

/-- `vocab = list(bytes_to_unicode().values())`: the 256 single-character
base symbols. -/
def byteVocab : List (List Char) := byteChars.map (fun c => [c])

/-- `merges = merges[1:49152-256-2+1]` after splitting the resource into
lines: skip the header line, keep the 48894-line prefix, split each line
on whitespace (`tuple(merge.split())`). -/
def mergesOf (lines : List (List Char)) : List (List (List Char)) :=
  ((lines.drop 1).take 48894).map pySplitWs

/-- `''.join(merge)`. -/
def joinAll (parts : List (List Char)) : List Char := parts.flatten

/-- The vocabulary list: base symbols, base symbols with the end-of-word
marker, one joined symbol per merge rule, then the two special tokens. -/
def vocabOf (lines : List (List Char)) : List (List Char) :=
  byteVocab ++ byteVocab.map (fun v => v ++ endw) ++
    (mergesOf lines).map joinAll ++ [sot, eot]

/-- `self.bpe_ranks = dict(zip(merges, range(len(merges))))`. -/
def bpeRanksOf (lines : List (List Char)) : List (List (List Char) × Nat) :=
  dictOf ((mergesOf lines).zip (List.range (mergesOf lines).length))

/-- Rank lookup `self.bpe_ranks.get(pair, inf)` for an adjacent pair: a
two-symbol key.  (Merge lines that do not split into exactly two symbols
produce keys of other arities, which no adjacent pair can match.) -/
def rankFn (lines : List (List Char)) (p : List Char × List Char) : Option Nat :=
  dictGet (bpeRanksOf lines) (p.1 :: p.2 :: [])

/-- `self.encoder = dict(zip(vocab, range(len(vocab))))`. -/
def encoderOf (lines : List (List Char)) : List (List Char × Nat) :=
  dictOf ((vocabOf lines).zip (List.range (vocabOf lines).length))

/-- `self.decoder = {v: k for k, v in self.encoder.items()}`. -/
def decoderOf (lines : List (List Char)) : List (Nat × List Char) :=
  dictOf ((encoderOf lines).map (fun e => (e.2, e.1)))

/-! ## Text normalization (`basic_clean`, `whitespace_clean`) -/

/-- Modelled from the spec: `ftfy.fix_text` (an external library) repairs
mojibake and broken unicode; on already well-formed text it changes
nothing.  Every claim exercises only well-formed ASCII text, where it is
the identity, and that identity behaviour is what is modelled. -/
def fix_text (l : List Char) : List Char := l

/-- Modelled from the spec: `html.unescape` (Python standard library)
replaces HTML character entities; text containing no ampersand is returned
unchanged.  Every claim exercises only ampersand-free text, so the
identity behaviour on such text is what is modelled. -/
def html_unescape (l : List Char) : List Char := l

/-- Python `str.strip()` on the ASCII whitespace model. -/
def pyStrip (l : List Char) : List Char :=
  ((l.dropWhile pyIsSpace).reverse.dropWhile pyIsSpace).reverse

/-- `re.sub(r'\s+', ' ', text)`: each maximal whitespace run becomes one
space.  The flag records whether the previous character was whitespace
(inside a run nothing more is emitted). -/
def collapseWsAux : List Char → Bool → List Char
  | [], _ => []
  | c :: cs, inRun =>
    if pyIsSpace c then
      if inRun then collapseWsAux cs true else ' ' :: collapseWsAux cs true
    else c :: collapseWsAux cs false

/-- `whitespace_clean`: collapse whitespace runs, then strip. -/
def whitespace_clean (l : List Char) : List Char := pyStrip (collapseWsAux l false)

/-- `basic_clean`: `ftfy.fix_text`, double `html.unescape`, strip. -/
def basic_clean (l : List Char) : List Char :=
  pyStrip (html_unescape (html_unescape (fix_text l)))

/-- The normalization applied inside `encode` / `_tokenize`:
`whitespace_clean(basic_clean(content)).lower()`. -/
def pyNormalize (l : List Char) : List Char :=
  (whitespace_clean (basic_clean l)).map Char.toLower

/-! ## The pretokenization regex (`ClipTokenizer.__init__`)

The compiled pattern is a triple-quoted raw string that wraps onto a second
source line without `re.X`, so the alternation after `'re` is the literal
`'\n' followed by eight spaces followed by 've'` — not `'ve` alone.  The
alternatives, in order, are the two special tokens, `'s`, `'t`, `'re`, that
newline branch, `'m`, `'ll`, `'d`, a maximal letter run `[\p{L}]+`, a single
digit `[\p{N}]`, and a maximal run of other non-space characters
`[^\s\p{L}\p{N}]+`, all case-insensitive.  The character classes are
modelled on the ASCII range (all claims exercise ASCII text). -/

/-- `\p{L}` on the ASCII range: `A`–`Z` or `a`–`z` (identical to
`Char.isAlpha`, written on code points). -/
def isLetterCh (c : Char) : Bool :=
  (65 ≤ c.toNat && c.toNat ≤ 90) || (97 ≤ c.toNat && c.toNat ≤ 122)

/-- `\p{N}` on the ASCII range: `0`–`9`. -/
def isDigitCh (c : Char) : Bool := 48 ≤ c.toNat && c.toNat ≤ 57

def isOtherCh (c : Char) : Bool := !pyIsSpace c && !isLetterCh c && !isDigitCh c

/-- The literal alternatives of the pattern, in order.  The fourth
contraction branch carries the stray newline and indentation of the
wrapped source line verbatim. -/
def clipLiterals : List (List Char) :=
  [sot, eot,
   apos :: 's' :: [],
   apos :: 't' :: [],
   apos :: 'r' :: 'e' :: [],
   '\n' :: List.replicate 8 ' ' ++ (apos :: 'v' :: 'e' :: []),
   apos :: 'm' :: [],
   apos :: 'l' :: 'l' :: [],
   apos :: 'd' :: []]

/-- Case-insensitive literal match at the head; returns the rest on
success. -/
def litAt : List Char → List Char → Option (List Char)
  | [], rest => some rest
  | _ :: _, [] => none
  | p :: ps, c :: cs => if p.toLower = c.toLower then litAt ps cs else none

/-- Try the literal alternatives in order; returns consumed text and rest. -/
def firstLit : List (List Char) → List Char → Option (List Char × List Char)
  | [], _ => none
  | p :: ps, l =>
    match litAt p l with
    | some rest => some (l.take p.length, rest)
    | none => firstLit ps l

/-- One regex match attempt at the current position: literals first, then
the letter-run, single-digit and other-run classes (leftmost alternative
wins; each class is greedy and no backtracking arises as the pattern is a
single alternation). -/
def matchOne (l : List Char) : Option (List Char × List Char) :=
  match firstLit clipLiterals l with
  | some r => some r
  | none =>
    match l with
    | [] => none
    | c :: cs =>
      if isLetterCh c then some (c :: cs.takeWhile isLetterCh, cs.dropWhile isLetterCh)
      else if isDigitCh c then some ([c], cs)
      else if isOtherCh c then some (c :: cs.takeWhile isOtherCh, cs.dropWhile isOtherCh)
      else none

theorem litAt_length (p : List Char) : ∀ l rest, litAt p l = some rest →
    rest.length + p.length = l.length := by
  induction p with
  | nil =>
    intro l rest h
    simp only [litAt, Option.some.injEq] at h
    subst h
    simp
  | cons p ps ih =>
    intro l rest h
    cases l with
    | nil => simp [litAt] at h
    | cons c cs =>
      simp only [litAt] at h
      by_cases hc : p.toLower = c.toLower
      · rw [if_pos hc] at h
        have := ih cs rest h
        simp only [List.length_cons]
        omega
      · rw [if_neg hc] at h
        simp at h

theorem clipLiterals_nonempty : ∀ p ∈ clipLiterals, p ≠ [] := by decide

theorem firstLit_rest_lt (ps : List (List Char)) (l : List Char)
    (m rest : List Char) (hne : ∀ p ∈ ps, p ≠ [])
    (h : firstLit ps l = some (m, rest)) : rest.length < l.length := by
  induction ps with
  | nil => simp [firstLit] at h
  | cons p ps ih =>
    simp only [firstLit] at h
    cases hl : litAt p l with
    | some r =>
      rw [hl] at h
      simp only [Option.some.injEq, Prod.mk.injEq] at h
      have hlen := litAt_length p l r hl
      have hp : p ≠ [] := hne p (by simp)
      have hplen : 0 < p.length := List.length_pos.mpr hp
      rw [← h.2]
      omega
    | none =>
      rw [hl] at h
      exact ih (fun q hq => hne q (List.mem_cons_of_mem _ hq)) h

theorem matchOne_rest_lt (l : List Char) (m rest : List Char)
    (h : matchOne l = some (m, rest)) : rest.length < l.length := by
  unfold matchOne at h
  cases hf : firstLit clipLiterals l with
  | some r =>
    rw [hf] at h
    simp only [Option.some.injEq] at h
    cases r with
    | mk m₀ r₀ =>
      have hlt := firstLit_rest_lt clipLiterals l m₀ r₀ clipLiterals_nonempty hf
      have h2 : r₀ = rest := congrArg Prod.snd h
      rw [h2] at hlt
      exact hlt
  | none =>
    rw [hf] at h
    cases l with
    | nil =>
      have h' : (none : Option (List Char × List Char)) = some (m, rest) := h
      simp at h'
    | cons c cs =>
      have h' : (if isLetterCh c = true then
          some (c :: List.takeWhile isLetterCh cs, List.dropWhile isLetterCh cs)
        else if isDigitCh c = true then some ([c], cs)
        else if isOtherCh c = true then
          some (c :: List.takeWhile isOtherCh cs, List.dropWhile isOtherCh cs)
        else none) = some (m, rest) := h
      by_cases h1 : isLetterCh c = true
      · rw [if_pos h1] at h'
        simp only [Option.some.injEq, Prod.mk.injEq] at h'
        have := dropWhile_len_le isLetterCh cs
        rw [← h'.2]
        simp only [List.length_cons]
        omega
      · rw [if_neg h1] at h'
        by_cases h2 : isDigitCh c = true
        · rw [if_pos h2] at h'
          simp only [Option.some.injEq, Prod.mk.injEq] at h'
          rw [← h'.2]
          simp
        · rw [if_neg h2] at h'
          by_cases h3 : isOtherCh c = true
          · rw [if_pos h3] at h'
            simp only [Option.some.injEq, Prod.mk.injEq] at h'
            have := dropWhile_len_le isOtherCh cs
            rw [← h'.2]
            simp only [List.length_cons]
            omega
          · rw [if_neg h3] at h'
            simp at h'

/-- `re.findall(self.pat, content)`, fuel-indexed (the fuel is the text
length, which bounds the scanning steps because every match is nonempty,
`matchOne_rest_lt`): scan left to right; at each position take the
leftmost-alternative match (non-overlapping, continuing after the match),
or advance one character when nothing matches there. -/
def findAllF : Nat → List Char → List (List Char)
  | 0, _ => []
  | _ + 1, [] => []
  | fuel + 1, c :: cs =>
    match matchOne (c :: cs) with
    | some (m, rest) => m :: findAllF fuel rest
    | none => findAllF fuel cs

def findAll (l : List Char) : List (List Char) := findAllF l.length l

theorem findAllF_nil (fuel : Nat) : findAllF fuel [] = [] := by
  cases fuel with
  | zero => rfl
  | succ f => rfl

theorem findAllF_fuel_irrel : ∀ f1 f2 l, l.length ≤ f1 → l.length ≤ f2 →
    findAllF f1 l = findAllF f2 l := by
  intro f1
  induction f1 with
  | zero =>
    intro f2 l h1 h2
    have : l = [] := List.length_eq_zero.mp (Nat.le_zero.mp h1)
    subst this
    rw [findAllF_nil, findAllF_nil]
  | succ f ih =>
    intro f2 l h1 h2
    cases f2 with
    | zero =>
      have : l = [] := List.length_eq_zero.mp (Nat.le_zero.mp h2)
      subst this
      rw [findAllF_nil, findAllF_nil]
    | succ g =>
      cases l with
      | nil => rw [findAllF_nil, findAllF_nil]
      | cons c cs =>
        show (match matchOne (c :: cs) with
          | some (m, rest) => m :: findAllF f rest
          | none => findAllF f cs) =
          (match matchOne (c :: cs) with
          | some (m, rest) => m :: findAllF g rest
          | none => findAllF g cs)
        cases hm : matchOne (c :: cs) with
        | some r =>
          cases r with
          | mk m rest =>
            have hlt := matchOne_rest_lt (c :: cs) m rest hm
            simp only [List.length_cons] at h1 h2 hlt
            simp only [ih g rest (by omega) (by omega)]
        | none =>
          simp only [List.length_cons] at h1 h2
          simp only [ih g cs (by omega) (by omega)]

/-- `findAll` satisfies the natural scanning equation. -/
theorem findAll_cons (c : Char) (cs : List Char) :
    findAll (c :: cs) =
      match matchOne (c :: cs) with
      | some (m, rest) => m :: findAll rest
      | none => findAll cs := by
  show (match matchOne (c :: cs) with
    | some (m, rest) => m :: findAllF cs.length rest
    | none => findAllF cs.length cs) = _
  cases hm : matchOne (c :: cs) with
  | some r =>
    cases r with
    | mk m rest =>
      have hlt := matchOne_rest_lt (c :: cs) m rest hm
      simp only [List.length_cons] at hlt
      simp only [findAll, findAllF_fuel_irrel cs.length rest.length rest (by omega)
        (Nat.le_refl _)]
  | none => rfl

/-! ## The encode / decode pipeline -/

/-- Byte-encode one raw token: UTF-8 bytes, each mapped through the
byte-to-unicode codec (`''.join(self.byte_encoder[b] for b in
token.encode('utf-8'))`); `none` models `KeyError` (unreachable: the codec
is total on bytes). -/
def byteEncodeToken (tk : List Char) : Option (List Char) :=
  (mapOpt (fun b => dictGet byte_encoder b) (utf8Encode tk))

/-- Run `tokenize_alg` over the raw tokens in order, threading the
`flag_dict` cache, splitting each merged result on the space separator and
concatenating (`output_ids.extend(... .split(' '))`). -/
def splitSpace : List Char → List (List Char)
  | [] => [[]]
  | c :: cs =>
    match splitSpace cs with
    | t :: ts => if c = ' ' then [] :: t :: ts else (c :: t) :: ts
    | [] => [[c]]

def encodeTokens (rk : List Char × List Char → Option Nat)
    (flags : List (List Char × List Char)) :
    List (List Char) → Option (List (List Char))
  | [] => some []
  | t :: ts =>
    match byteEncodeToken t with
    | none => none
    | some bt =>
      match encodeTokens rk (tokenizeAlg flags rk bt).2 ts with
      | none => none
      | some rest => some (splitSpace (tokenizeAlg flags rk bt).1 ++ rest)

/-- `ClipTokenizer._tokenize` (and the body of `TempTokenizer.encode`
before the vocabulary lookup): normalize, pretokenize, byte-encode and
merge each raw token.  `TempTokenizer.encode` reads the pattern from
`self.pat`, which only `ClipTokenizer.__init__` defines; the embedding
resolves it to that pattern. -/
def pyTokenizeText (lines : List (List Char)) (text : List Char) :
    Option (List (List Char)) :=
  encodeTokens (rankFn lines) flags0 (findAll (pyNormalize text))

/-- `TempTokenizer.encode`: `_tokenize` followed by the vocabulary lookup
of each merged symbol; `none` models `KeyError`. -/
def pyEncode (lines : List (List Char)) (text : List Char) : Option (List Nat) :=
  match pyTokenizeText lines text with
  | none => none
  | some toks => mapOpt (fun s => dictGet (encoderOf lines) s) toks

/-- `TempTokenizer.decode`: inverse vocabulary, concatenate, inverse byte
codec, UTF-8 decode with replacement, end-of-word markers to spaces. -/
def pyDecode (lines : List (List Char)) (ids : List Nat) : Option (List Char) :=
  match mapOpt (fun i => dictGet (decoderOf lines) i) ids with
  | none => none
  | some syms =>
    match mapOpt (fun c => dictGet byte_decoder c) syms.flatten with
    | none => none
    | some bytes => some (replaceAll endw [' '] (utf8DecodeReplace bytes))

/-- A Python value passed to `ClipTokenizer.tokenize`: a `str` or anything
else (duck typing). -/
inductive PyVal : Type
  | str (s : List Char)
  | nonStr

/-- The Python exceptions the tokenize path can raise. -/
inductive PyErr : Type
  | valueError
  | keyError
deriving DecidableEq

/-- `ClipTokenizer.tokenize`: raise `ValueError` on a non-`str` input, else
run `_tokenize`; a failed dict lookup inside (never reachable with the
total byte codec) would surface as `KeyError`. -/
def clipTokenize (lines : List (List Char)) : PyVal → Except PyErr (List (List Char))
  | .str s =>
    match pyTokenizeText lines s with
    | some toks => .ok toks
    | none => .error .keyError
  | .nonStr => .error .valueError

/-! ## Structure of the built dictionaries -/

theorem keysOf_zip_range {α : Type} (l : List α) :
    keysOf (l.zip (List.range l.length)) = l := by
  unfold keysOf
  exact List.map_fst_zip l _ (by rw [List.length_range])

theorem sndOf_zip_range {α : Type} (l : List α) :
    (l.zip (List.range l.length)).map Prod.snd = List.range l.length := by
  apply List.map_snd_zip
  rw [List.length_range]

theorem encoderOf_eq_of_nodup (lines : List (List Char)) (h : (vocabOf lines).Nodup) :
    encoderOf lines = (vocabOf lines).zip (List.range (vocabOf lines).length) := by
  unfold encoderOf
  apply dictOf_of_nodup_keys
  rw [keysOf_zip_range]
  exact h

theorem decoderOf_eq_of_nodup (lines : List (List Char)) (h : (vocabOf lines).Nodup) :
    decoderOf lines =
      ((vocabOf lines).zip (List.range (vocabOf lines).length)).map
        (fun e => (e.2, e.1)) := by
  unfold decoderOf
  rw [encoderOf_eq_of_nodup lines h]
  apply dictOf_of_nodup_keys
  have hk : keysOf ((((vocabOf lines).zip (List.range (vocabOf lines).length))).map
      (fun e => (e.2, e.1)))
      = ((vocabOf lines).zip (List.range (vocabOf lines).length)).map Prod.snd := by
    simp only [keysOf, List.map_map]
    rfl
  rw [hk, sndOf_zip_range]
  exact List.nodup_range _

theorem mem_zip_range_getElem {α : Type} (l : List α) (a : α) (i : Nat)
    (h : (a, i) ∈ l.zip (List.range l.length)) :
    ∃ hi : i < l.length, l[i] = a := by
  obtain ⟨j, hj, hget⟩ := List.mem_iff_getElem.mp h
  rw [List.getElem_zip] at hget
  have hj2 : j < l.length := by
    rw [List.length_zip, List.length_range] at hj
    omega
  have h1 := congrArg Prod.fst hget
  have h2 := congrArg Prod.snd hget
  simp only [List.getElem_range] at h2
  simp only at h1
  subst h2
  exact ⟨hj2, h1⟩

theorem zip_range_val_unique {α : Type} (l : List α) (a b : α) (i : Nat)
    (h1 : (a, i) ∈ l.zip (List.range l.length))
    (h2 : (b, i) ∈ l.zip (List.range l.length)) : a = b := by
  obtain ⟨hi, ha⟩ := mem_zip_range_getElem l a i h1
  obtain ⟨hi2, hb⟩ := mem_zip_range_getElem l b i h2
  rw [← ha, ← hb]

theorem lastWins_unique_key {α β : Type} [BEq α] [LawfulBEq α]
    (m : List (α × β)) (k : α) (v : β) (hmem : (k, v) ∈ m)
    (huniq : ∀ e ∈ m, e.1 = k → e.2 = v) : lastWins m k = some v := by
  unfold lastWins
  cases hf : m.reverse.find? (fun e => e.1 == k) with
  | none =>
    rw [List.find?_eq_none] at hf
    exact absurd (by simp : (((k, v).1 == k) = true))
      (hf (k, v) (List.mem_reverse.mpr hmem))
  | some e =>
    have he1 : (e.1 == k) = true := by
      have := List.find?_some hf
      simpa using this
    have hmem2 : e ∈ m := List.mem_reverse.mp (List.mem_of_find?_eq_some hf)
    have he2 : e.2 = v := huniq e hmem2 (eq_of_beq he1)
    simp [he2]

/-- Vocabulary lookup is invertible: whatever id the encoder assigned to a
symbol, the decoder maps it back (Python builds `decoder` from the final
`encoder` items, so this holds even if the vocabulary list had repeats). -/
theorem decoder_of_encoder (lines : List (List Char)) (s : List Char) (i : Nat)
    (h : dictGet (encoderOf lines) s = some i) :
    dictGet (decoderOf lines) i = some s := by
  have hmem : (s, i) ∈ encoderOf lines := dictGet_some_mem _ _ _ h
  unfold decoderOf
  rw [dictGet_dictOf]
  apply lastWins_unique_key
  · exact List.mem_map.mpr ⟨(s, i), hmem, rfl⟩
  · intro e he hk
    obtain ⟨e₀, he₀, heq⟩ := List.mem_map.mp he
    have h1 : e₀ ∈ (vocabOf lines).zip (List.range (vocabOf lines).length) :=
      mem_of_mem_dictOf _ _ (by unfold encoderOf at he₀; exact he₀)
    have h2 : (s, i) ∈ (vocabOf lines).zip (List.range (vocabOf lines).length) :=
      mem_of_mem_dictOf _ _ (by unfold encoderOf at hmem; exact hmem)
    have he1 : e.1 = e₀.2 := by rw [← heq]
    have he2 : e.2 = e₀.1 := by rw [← heq]
    rw [he2]
    have h3 : (e₀.1, i) ∈ (vocabOf lines).zip (List.range (vocabOf lines).length) := by
      have : e₀ = (e₀.1, i) := by
        have : e₀.2 = i := by rw [← he1, hk]
        rw [← this]
      rw [← this]
      exact h1
    exact zip_range_val_unique _ e₀.1 s i h3 h2

theorem encoder_isSome (lines : List (List Char)) (s : List Char)
    (h : s ∈ vocabOf lines) : (dictGet (encoderOf lines) s).isSome := by
  unfold encoderOf
  apply dictGet_isSome_of_mem_keys
  rw [keysOf_zip_range]
  exact h

theorem lastWins_zip_last {α : Type} [BEq α] [LawfulBEq α] (v : List α) (x : α) :
    lastWins ((v ++ [x]).zip (List.range (v ++ [x]).length)) x = some v.length := by
  have hlen : (v ++ [x]).length = v.length + 1 := by simp
  rw [hlen, List.range_succ,
    List.zip_append (by rw [List.length_range])]
  have : [x].zip [v.length] = [(x, v.length)] := rfl
  rw [this, lastWins_append_single]
  simp

theorem vocabOf_eq_concat (lines : List (List Char)) : vocabOf lines =
    (byteVocab ++ byteVocab.map (fun v => v ++ endw) ++
      (mergesOf lines).map joinAll ++ [sot]) ++ [eot] := by
  unfold vocabOf
  simp [List.append_assoc]

/-- The id the encoder stores for `'<|endoftext|>'` is the last vocabulary
position, whatever the merge resource contains (it is appended last, and a
later duplicate write would win anyway). -/
theorem encoder_eot (lines : List (List Char)) :
    dictGet (encoderOf lines) eot = some ((vocabOf lines).length - 1) := by
  unfold encoderOf
  rw [dictGet_dictOf, vocabOf_eq_concat, lastWins_zip_last]
  have hlen : ((byteVocab ++ byteVocab.map (fun v => v ++ endw) ++
      (mergesOf lines).map joinAll ++ [sot]) ++ [eot]).length - 1
      = (byteVocab ++ byteVocab.map (fun v => v ++ endw) ++
        (mergesOf lines).map joinAll ++ [sot]).length := by
    simp only [List.length_append, List.length_cons, List.length_nil]
    omega
  rw [hlen]

theorem lastWins_zip_append_single {α : Type} [BEq α] [LawfulBEq α]
    (v : List α) (x q : α) (hne : ¬ q = x) :
    lastWins ((v ++ [x]).zip (List.range (v ++ [x]).length)) q
      = lastWins (v.zip (List.range v.length)) q := by
  have hlen : (v ++ [x]).length = v.length + 1 := by simp
  rw [hlen, List.range_succ, List.zip_append (by rw [List.length_range])]
  have hz : [x].zip [v.length] = [(x, v.length)] := rfl
  rw [hz, lastWins_append_single]
  have hb : (q == x) = false := by simp [hne]
  rw [hb]
  simp

/-- The id the encoder stores for `'<|startoftext|>'` is the second-to-last
vocabulary position. -/
theorem encoder_sot (lines : List (List Char)) :
    dictGet (encoderOf lines) sot = some ((vocabOf lines).length - 2) := by
  unfold encoderOf
  rw [dictGet_dictOf, vocabOf_eq_concat]
  have hA : byteVocab ++ byteVocab.map (fun v => v ++ endw) ++
      (mergesOf lines).map joinAll ++ [sot]
      = (byteVocab ++ byteVocab.map (fun v => v ++ endw) ++
        (mergesOf lines).map joinAll) ++ [sot] := by
    simp [List.append_assoc]
  rw [hA, lastWins_zip_append_single _ _ _ (by decide), lastWins_zip_last]
  have hlen : (((byteVocab ++ byteVocab.map (fun v => v ++ endw) ++
      (mergesOf lines).map joinAll) ++ [sot]) ++ [eot]).length - 2
      = (byteVocab ++ byteVocab.map (fun v => v ++ endw) ++
        (mergesOf lines).map joinAll).length := by
    simp only [List.length_append, List.length_cons, List.length_nil]
    omega
  rw [hlen]

/-! ## Small structural facts about words -/

theorem initWord_length (tk : List Char) : (initWord tk).length = tk.length := by
  induction tk with
  | nil => rfl
  | cons c cs ih =>
    cases cs with
    | nil => rfl
    | cons d ds =>
      show ([c] :: initWord (d :: ds)).length = (c :: d :: ds).length
      simp only [List.length_cons] at ih ⊢
      omega

theorem getPairs_length (w : List (List Char)) :
    (getPairs w).length = w.length - 1 := by
  unfold getPairs
  rw [List.length_zip, List.length_tail]
  omega

theorem getPairs_ne_nil (w : List (List Char)) (h : 2 ≤ w.length) :
    getPairs w ≠ [] := by
  intro hnil
  have := getPairs_length w
  rw [hnil] at this
  simp at this
  omega

theorem getPairs_nil_length (w : List (List Char)) (h : getPairs w = []) :
    w.length ≤ 1 := by
  have := getPairs_length w
  rw [h] at this
  simp at this
  omega

theorem intercalate_single (s : List Char) (x : List Char) :
    List.intercalate s [x] = x := by
  simp [List.intercalate]

/-- A single-character token whose word has no pairs. -/
theorem initWord_singleton (tk : List Char) (hne : tk ≠ [])
    (h : getPairs (initWord tk) = []) : initWord tk = [tk ++ endw] := by
  have hlen := getPairs_nil_length _ h
  rw [initWord_length] at hlen
  cases tk with
  | nil => exact absurd rfl hne
  | cons c cs =>
    cases cs with
    | nil => rfl
    | cons d ds => simp at hlen

/-! ## A minimal concrete merge resource, for witnesses

`linesT` is a resource consisting of just a header line: no merge rules, so
the vocabulary is the 514 base symbols plus the two special tokens. -/

def linesT : List (List Char) := [['b', 'p', 'e']]

theorem takeWhile_all {α : Type} (p : α → Bool) (l : List α)
    (h : ∀ a ∈ l, p a = true) : l.takeWhile p = l := by
  induction l with
  | nil => rfl
  | cons c cs ih =>
    rw [List.takeWhile_cons, h c (by simp)]
    rw [ih (fun a ha => h a (List.mem_cons_of_mem _ ha))]
    simp

theorem dropWhile_all {α : Type} (p : α → Bool) (l : List α)
    (h : ∀ a ∈ l, p a = true) : l.dropWhile p = [] := by
  induction l with
  | nil => rfl
  | cons c cs ih =>
    rw [List.dropWhile_cons, h c (by simp)]
    simp only [if_pos]
    exact ih (fun a ha => h a (List.mem_cons_of_mem _ ha))

/-! ## Invariants of the merge loop -/

theorem mem_mergeOnePass (a b : List Char) (w : List (List Char)) (s : List Char)
    (h : s ∈ mergeOnePass a b w) : s ∈ w ∨ s = a ++ b := by
  generalize hn : w.length = n
  induction n using Nat.strong_induction_on generalizing w with
  | _ n ih =>
    match w with
    | [] => exact absurd h (by simp [mergeOnePass])
    | [x] =>
      left
      simpa [mergeOnePass] using h
    | x :: y :: rest =>
      subst hn
      have e2 : mergeOnePass a b (x :: y :: rest) =
          if x = a ∧ y = b then (a ++ b) :: mergeOnePass a b rest
          else x :: mergeOnePass a b (y :: rest) := rfl
      rw [e2] at h
      by_cases hc : x = a ∧ y = b
      · rw [if_pos hc] at h
        rcases List.mem_cons.mp h with he | he
        · right; exact he
        · rcases ih rest.length (by simp only [List.length_cons]; omega) rest he rfl
            with hw | hw
          · left; exact List.mem_cons_of_mem _ (List.mem_cons_of_mem _ hw)
          · right; exact hw
      · rw [if_neg hc] at h
        rcases List.mem_cons.mp h with he | he
        · left; simp [he]
        · rcases ih (y :: rest).length (by simp only [List.length_cons]; omega)
            (y :: rest) he rfl with hw | hw
          · left; exact List.mem_cons_of_mem _ hw
          · right; exact hw

theorem mergeOnePass_flatten (a b : List Char) (w : List (List Char)) :
    (mergeOnePass a b w).flatten = w.flatten := by
  generalize hn : w.length = n
  induction n using Nat.strong_induction_on generalizing w with
  | _ n ih =>
    match w with
    | [] => rfl
    | [x] => rfl
    | x :: y :: rest =>
      subst hn
      have e2 : mergeOnePass a b (x :: y :: rest) =
          if x = a ∧ y = b then (a ++ b) :: mergeOnePass a b rest
          else x :: mergeOnePass a b (y :: rest) := rfl
      rw [e2]
      by_cases hc : x = a ∧ y = b
      · rw [if_pos hc]
        rw [List.flatten_cons, ih rest.length (by simp only [List.length_cons]; omega)
          rest rfl]
        rw [List.flatten_cons, List.flatten_cons, hc.1, hc.2, List.append_assoc]
      · rw [if_neg hc]
        rw [List.flatten_cons, ih (y :: rest).length
          (by simp only [List.length_cons]; omega) (y :: rest) rfl, List.flatten_cons]
        simp [List.flatten_cons]

theorem getPairs_mem (a b : List Char) (w : List (List Char))
    (h : (a, b) ∈ getPairs w) : a ∈ w ∧ b ∈ w := by
  unfold getPairs at h
  have h2 := List.of_mem_zip h
  exact ⟨h2.1, List.mem_of_mem_tail h2.2⟩

/-- Any property of symbols that is preserved by merging a ranked adjacent
pair is an invariant of the whole merge loop. -/
theorem bpeLoopF_invariant (rk : List Char × List Char → Option Nat)
    (P : List Char → Prop)
    (hmerge : ∀ a b n, rk (a, b) = some n → P a → P b → P (a ++ b)) :
    ∀ fuel w, (∀ s ∈ w, P s) → ∀ s ∈ bpeLoopF rk fuel w, P s := by
  intro fuel
  induction fuel with
  | zero => intro w hw s hs; exact hw s hs
  | succ f ih =>
    intro w hw s hs
    revert hs
    show s ∈ (match bestPair rk (getPairs w) with
      | none => w
      | some (p, _) =>
        if (mergePass p.1 p.2 w).length = 1 then mergePass p.1 p.2 w
        else bpeLoopF rk f (mergePass p.1 p.2 w)) → P s
    cases hb : bestPair rk (getPairs w) with
    | none => exact fun hs => hw s hs
    | some r =>
      cases r with
      | mk p m =>
        have hsound := bestPair_sound rk (getPairs w) p m hb
        have hpm := getPairs_mem p.1 p.2 w (by
          have : (p.1, p.2) = p := rfl
          rw [this]
          exact hsound.1)
        have hnew : ∀ s₀ ∈ mergePass p.1 p.2 w, P s₀ := by
          intro s₀ hs₀
          rw [mergePass_eq_mergeOnePass] at hs₀
          rcases mem_mergeOnePass p.1 p.2 w s₀ hs₀ with hin | heq
          · exact hw s₀ hin
          · subst heq
            exact hmerge p.1 p.2 m hsound.2 (hw _ hpm.1) (hw _ hpm.2)
        show s ∈ (if (mergePass p.1 p.2 w).length = 1 then mergePass p.1 p.2 w
          else bpeLoopF rk f (mergePass p.1 p.2 w)) → P s
        by_cases h1 : (mergePass p.1 p.2 w).length = 1
        · rw [if_pos h1]
          exact fun hs => hnew s hs
        · rw [if_neg h1]
          exact fun hs => ih (mergePass p.1 p.2 w) hnew s hs

/-- The merge loop only regroups the word: the concatenation of its symbols
never changes. -/
theorem bpeLoopF_flatten (rk : List Char × List Char → Option Nat) :
    ∀ fuel w, (bpeLoopF rk fuel w).flatten = w.flatten := by
  intro fuel
  induction fuel with
  | zero => intro w; rfl
  | succ f ih =>
    intro w
    show (match bestPair rk (getPairs w) with
      | none => w
      | some (p, _) =>
        if (mergePass p.1 p.2 w).length = 1 then mergePass p.1 p.2 w
        else bpeLoopF rk f (mergePass p.1 p.2 w)).flatten = w.flatten
    cases hb : bestPair rk (getPairs w) with
    | none => rfl
    | some r =>
      cases r with
      | mk p m =>
        show (if (mergePass p.1 p.2 w).length = 1 then mergePass p.1 p.2 w
          else bpeLoopF rk f (mergePass p.1 p.2 w)).flatten = w.flatten
        by_cases h1 : (mergePass p.1 p.2 w).length = 1
        · rw [if_pos h1, mergePass_eq_mergeOnePass, mergeOnePass_flatten]
        · rw [if_neg h1, ih, mergePass_eq_mergeOnePass, mergeOnePass_flatten]

theorem initWord_flatten (tk : List Char) (hne : tk ≠ []) :
    (initWord tk).flatten = tk ++ endw := by
  induction tk with
  | nil => exact absurd rfl hne
  | cons c cs ih =>
    cases cs with
    | nil => simp [initWord]
    | cons d ds =>
      show ([c] :: initWord (d :: ds)).flatten = (c :: d :: ds) ++ endw
      rw [List.flatten_cons, ih (by simp)]
      simp

theorem mem_initWord (tk : List Char) (s : List Char) (h : s ∈ initWord tk) :
    (∃ c ∈ tk, s = [c]) ∨ (∃ c ∈ tk, s = c :: endw) := by
  induction tk with
  | nil => exact absurd h (by simp [initWord])
  | cons c cs ih =>
    cases cs with
    | nil =>
      right
      exact ⟨c, by simp, by simpa [initWord] using h⟩
    | cons d ds =>
      have h2 : s ∈ ([c] :: initWord (d :: ds)) := h
      rcases List.mem_cons.mp h2 with he | he
      · left; exact ⟨c, by simp, he⟩
      · rcases ih he with ⟨c₀, hc₀, he₀⟩ | ⟨c₀, hc₀, he₀⟩
        · left; exact ⟨c₀, List.mem_cons_of_mem _ hc₀, he₀⟩
        · right; exact ⟨c₀, List.mem_cons_of_mem _ hc₀, he₀⟩

/-! ## Claim C4: merge output stays inside the vocabulary -/

theorem joinAll_pair (a b : List Char) : joinAll (a :: b :: []) = a ++ b := by
  unfold joinAll
  simp

theorem ranked_mem_vocab (lines : List (List Char)) (a b : List Char) (n : Nat)
    (h : rankFn lines (a, b) = some n) : (a ++ b) ∈ vocabOf lines := by
  unfold rankFn at h
  have hmem := dictGet_some_mem _ _ _ h
  unfold bpeRanksOf at hmem
  have hz := mem_of_mem_dictOf _ _ hmem
  have hm : (a :: b :: []) ∈ mergesOf lines := (List.of_mem_zip hz).1
  have hj : joinAll (a :: b :: []) ∈ (mergesOf lines).map joinAll :=
    List.mem_map.mpr ⟨_, hm, rfl⟩
  rw [joinAll_pair] at hj
  unfold vocabOf
  simp only [List.mem_append]
  left; right
  exact hj

theorem byteChar_vocab (lines : List (List Char)) (c : Char) (hc : c ∈ byteChars) :
    [c] ∈ vocabOf lines ∧ (c :: endw) ∈ vocabOf lines := by
  have h1 : [c] ∈ byteVocab := List.mem_map.mpr ⟨c, hc, rfl⟩
  have h2 : (c :: endw) ∈ byteVocab.map (fun v => v ++ endw) :=
    List.mem_map.mpr ⟨[c], h1, rfl⟩
  unfold vocabOf
  constructor
  · simp only [List.mem_append]
    left; left; left
    exact h1
  · simp only [List.mem_append]
    left; left; right
    exact h2

theorem bpeWord_mem_vocab (lines : List (List Char)) (tk : List Char) (hne : tk ≠ [])
    (htk : ∀ c ∈ tk, c ∈ byteChars) :
    ∀ s ∈ bpeWord (rankFn lines) tk, s ∈ vocabOf lines := by
  intro s hs
  unfold bpeWord at hs
  by_cases hp : getPairs (initWord tk) = []
  · rw [if_pos hp] at hs
    have hse : s = tk ++ endw := by simpa using hs
    subst hse
    have hlen := getPairs_nil_length _ hp
    rw [initWord_length] at hlen
    cases tk with
    | nil => exact absurd rfl hne
    | cons c cs =>
      cases cs with
      | nil => exact (byteChar_vocab lines c (htk c (by simp))).2
      | cons d ds => simp at hlen
  · rw [if_neg hp] at hs
    refine bpeLoopF_invariant (rankFn lines) (fun s₀ => s₀ ∈ vocabOf lines)
      ?_ _ _ ?_ s hs
    · intro a b n hr _ _
      exact ranked_mem_vocab lines a b n hr
    · intro s₀ hs₀
      rcases mem_initWord tk s₀ hs₀ with ⟨c, hc, hceq⟩ | ⟨c, hc, hceq⟩
      · subst hceq
        exact (byteChar_vocab lines c (htk c hc)).1
      · subst hceq
        exact (byteChar_vocab lines c (htk c hc)).2

/-- C4: for every merge-rank table built by the constructor and every
byte-encoded input token, every symbol in the merge engine's final word is
a key of the vocabulary, so the vocabulary lookup after merging never
encounters an absent symbol. -/
theorem claim_C4 (lines : List (List Char)) (tk : List Char) (hne : tk ≠ [])
    (htk : ∀ c ∈ tk, c ∈ byteChars) :
    ∀ s ∈ bpeWord (rankFn lines) tk, (dictGet (encoderOf lines) s).isSome := by
  intro s hs
  exact encoder_isSome lines s (bpeWord_mem_vocab lines tk hne htk s hs)

set_option maxRecDepth 1000000 in
/-- Witness for C4 at the token `'ab'` with the minimal resource. -/
theorem claim_C4_witness :
    ('a' :: 'b' :: []) ≠ [] ∧ (∀ c ∈ ('a' :: 'b' :: []), c ∈ byteChars) ∧
    ∀ s ∈ bpeWord (rankFn linesT) ('a' :: 'b' :: []),
      (dictGet (encoderOf linesT) s).isSome :=
  ⟨by simp, by decide, claim_C4 linesT ('a' :: 'b' :: []) (by simp) (by decide)⟩

set_option maxRecDepth 100000 in
theorem byteVocab_length : byteVocab.length = 256 := by decide

theorem vocabOf_length (lines : List (List Char)) :
    (vocabOf lines).length = 514 + (mergesOf lines).length := by
  unfold vocabOf
  simp only [List.length_append, List.length_map, List.length_cons, List.length_nil,
    byteVocab_length]
  omega

/-! ## Claim C7: decode is total on vocabulary ids -/

theorem mem_of_mem_takeWhile {α : Type} (p : α → Bool) (l : List α) (a : α)
    (h : a ∈ l.takeWhile p) : a ∈ l := by
  induction l with
  | nil => simp [List.takeWhile] at h
  | cons c cs ih =>
    rw [List.takeWhile_cons] at h
    by_cases hc : p c
    · rw [if_pos hc] at h
      rcases List.mem_cons.mp h with he | he
      · simp [he]
      · exact List.mem_cons_of_mem _ (ih he)
    · rw [if_neg hc] at h
      simp at h

theorem mem_of_mem_dropWhile {α : Type} (p : α → Bool) (l : List α) (a : α)
    (h : a ∈ l.dropWhile p) : a ∈ l := by
  induction l with
  | nil => simp [List.dropWhile] at h
  | cons c cs ih =>
    rw [List.dropWhile_cons] at h
    by_cases hc : p c
    · rw [if_pos hc] at h
      exact List.mem_cons_of_mem _ (ih h)
    · rw [if_neg hc] at h
      exact h

/-- Every character of every word `str.split()` produces comes from the
line itself. -/
theorem pySplitWsF_subset : ∀ fuel (l : List Char) (part : List Char),
    part ∈ pySplitWsF fuel l → ∀ c ∈ part, c ∈ l := by
  intro fuel
  induction fuel with
  | zero => intro l part h; simp [pySplitWsF] at h
  | succ f ih =>
    intro l part h c hc
    cases l with
    | nil => simp [pySplitWsF] at h
    | cons c₀ cs =>
      have h2 : part ∈ (if pyIsSpace c₀ then pySplitWsF f cs
        else (c₀ :: cs.takeWhile (fun d => !pyIsSpace d)) ::
          pySplitWsF f (cs.dropWhile (fun d => !pyIsSpace d))) := h
      by_cases hsp : pyIsSpace c₀
      · rw [if_pos hsp] at h2
        exact List.mem_cons_of_mem _ (ih cs part h2 c hc)
      · rw [if_neg hsp] at h2
        rcases List.mem_cons.mp h2 with he | he
        · subst he
          rcases List.mem_cons.mp hc with hq | hq
          · simp [hq]
          · exact List.mem_cons_of_mem _ (mem_of_mem_takeWhile _ cs c hq)
        · have := ih _ part he c hc
          exact List.mem_cons_of_mem _ (mem_of_mem_dropWhile _ cs c this)

set_option maxRecDepth 1000000 in
theorem endw_chars : ∀ c ∈ endw, c ∈ byteChars := by decide

set_option maxRecDepth 1000000 in
theorem special_chars : ∀ c ∈ sot ++ eot, c ∈ byteChars := by decide

/-- Under a well-formed merge resource (every character of every line is a
codec character — true of the shipped BPE file), every character of every
vocabulary symbol is a codec character. -/
theorem vocab_chars (lines : List (List Char))
    (hlines : ∀ l ∈ lines, ∀ c ∈ l, c ∈ byteChars)
    (s : List Char) (hs : s ∈ vocabOf lines) : ∀ c ∈ s, c ∈ byteChars := by
  intro c hc
  unfold vocabOf at hs
  simp only [List.mem_append] at hs
  rcases hs with ((hs | hs) | hs) | hs
  · obtain ⟨c₀, hc₀, he⟩ := List.mem_map.mp hs
    subst he
    rcases List.mem_singleton.mp hc with rfl
    exact hc₀
  · obtain ⟨v, hv, he⟩ := List.mem_map.mp hs
    obtain ⟨c₀, hc₀, hve⟩ := List.mem_map.mp hv
    subst he
    subst hve
    rcases List.mem_cons.mp (by simpa using hc) with he | he
    · subst he; exact hc₀
    · exact endw_chars c he
  · obtain ⟨parts, hparts, he⟩ := List.mem_map.mp hs
    obtain ⟨line, hline, hpe⟩ := List.mem_map.mp hparts
    subst he
    unfold joinAll at hc
    obtain ⟨part, hpart, hcp⟩ := List.mem_flatten.mp hc
    have hcl : c ∈ line := by
      subst hpe
      exact pySplitWsF_subset line.length line part hpart c hcp
    have hll : line ∈ lines := by
      have h1 := List.mem_of_mem_take hline
      exact List.mem_of_mem_drop h1
    exact hlines line hll c hcl
  · rcases List.mem_cons.mp hs with he | he
    · subst he
      exact special_chars c (List.mem_append_left _ hc)
    · have he2 : s = eot := List.mem_singleton.mp he
      subst he2
      exact special_chars c (List.mem_append_right _ hc)

/-- C7: for every sequence of ids drawn from the vocabulary (ids the
inverse vocabulary defines), decode never raises: every id maps to a
symbol, every character of the concatenation maps back to a byte, UTF-8
decoding substitutes replacement characters instead of failing, and the
end-of-word replacement is total — so the whole of `decode` returns a
string.  (Well-formedness of the external merge resource — its lines use
codec characters — is assumed; it holds for the shipped file.) -/
theorem claim_C7 (lines : List (List Char)) (ids : List Nat)
    (hlines : ∀ l ∈ lines, ∀ c ∈ l, c ∈ byteChars)
    (hids : ∀ i ∈ ids, (dictGet (decoderOf lines) i).isSome) :
    (pyDecode lines ids).isSome := by
  unfold pyDecode
  have h1 : (mapOpt (fun i => dictGet (decoderOf lines) i) ids).isSome :=
    mapOpt_isSome _ _ hids
  obtain ⟨syms, hsyms⟩ := Option.isSome_iff_exists.mp h1
  rw [hsyms]
  have hsy : ∀ s ∈ syms, s ∈ vocabOf lines := by
    intro s hs
    obtain ⟨i, hi, hdec⟩ := mapOpt_mem_of_mem _ _ _ hsyms s hs
    have hmem := dictGet_some_mem _ _ _ hdec
    unfold decoderOf at hmem
    have h2 := mem_of_mem_dictOf _ _ hmem
    obtain ⟨e, he, heq⟩ := List.mem_map.mp h2
    have h3 := mem_of_mem_dictOf _ _ (by unfold encoderOf at he; exact he)
    have hs2 : e.1 ∈ vocabOf lines := (List.of_mem_zip h3).1
    have he1 : e.1 = s := congrArg Prod.snd heq
    rw [← he1]
    exact hs2
  have hchars : ∀ c ∈ syms.flatten, (dictGet byte_decoder c).isSome := by
    intro c hc
    obtain ⟨s, hsmem, hcs⟩ := List.mem_flatten.mp hc
    exact byteChar_decodable c (vocab_chars lines hlines s (hsy s hsmem) c hcs)
  have h2 : (mapOpt (fun c => dictGet byte_decoder c) syms.flatten).isSome :=
    mapOpt_isSome _ _ hchars
  obtain ⟨bytes, hbytes⟩ := Option.isSome_iff_exists.mp h2
  show (match mapOpt (fun c => dictGet byte_decoder c) syms.flatten with
    | none => none
    | some bytes => some (replaceAll endw [' '] (utf8DecodeReplace bytes))).isSome = true
  rw [hbytes]
  rfl

theorem vocabOf_linesT_length : (vocabOf linesT).length = 514 := by
  rw [vocabOf_length]
  decide

set_option maxRecDepth 1000000 in
/-- Witness for C7: the reserved id of `'<|endoftext|>'` (513 in the
minimal resource). -/
theorem claim_C7_witness :
    (∀ l ∈ linesT, ∀ c ∈ l, c ∈ byteChars) ∧
    (∀ i ∈ (513 :: []), (dictGet (decoderOf linesT) i).isSome) ∧
    (pyDecode linesT (513 :: [])).isSome := by
  have hlines : ∀ l ∈ linesT, ∀ c ∈ l, c ∈ byteChars := by decide
  have hdec : dictGet (decoderOf linesT) 513 = some eot := by
    apply decoder_of_encoder
    have he := encoder_eot linesT
    rw [vocabOf_linesT_length] at he
    exact he
  have hids : ∀ i ∈ (513 :: []), (dictGet (decoderOf linesT) i).isSome := by
    intro i hi
    rcases List.mem_singleton.mp hi with rfl
    rw [hdec]
    rfl
  exact ⟨hlines, hids, claim_C7 linesT (513 :: []) hlines hids⟩

/-! ## Claim C2 (corrected): the decode∘encode roundtrip -/

theorem char_toNat_inj (c d : Char) (h : c.toNat = d.toNat) : c = d := by
  have h2 := congrArg Char.ofNat h
  rwa [Char.ofNat_toNat, Char.ofNat_toNat] at h2

theorem charBeq_ne (c d : Char) (h : ¬ c.toNat = d.toNat) : (c == d) = false :=
  beq_eq_false_iff_ne.mpr (fun he => h (congrArg Char.toNat he))

theorem letter_not_space (c : Char) (h1 : 97 ≤ c.toNat) (h2 : c.toNat ≤ 122) :
    pyIsSpace c = false := by
  unfold pyIsSpace
  rw [charBeq_ne c ' ' (by rw [show (' ').toNat = 32 from rfl]; omega),
    charBeq_ne c '\t' (by rw [show ('\t').toNat = 9 from rfl]; omega),
    charBeq_ne c '\n' (by rw [show ('\n').toNat = 10 from rfl]; omega),
    charBeq_ne c '\r' (by rw [show ('\r').toNat = 13 from rfl]; omega),
    charBeq_ne c (Char.ofNat 11) (by rw [show (Char.ofNat 11).toNat = 11 from rfl]; omega),
    charBeq_ne c (Char.ofNat 12) (by rw [show (Char.ofNat 12).toNat = 12 from rfl]; omega)]
  rfl

theorem toLower_lower (c : Char) (h1 : 97 ≤ c.toNat) (h2 : c.toNat ≤ 122) :
    c.toLower = c := by
  unfold Char.toLower
  rw [if_neg]
  omega

theorem collapseWsAux_nospace (l : List Char) (h : ∀ c ∈ l, pyIsSpace c = false) :
    collapseWsAux l false = l := by
  induction l with
  | nil => rfl
  | cons c cs ih =>
    show (if pyIsSpace c then _ else c :: collapseWsAux cs false) = c :: cs
    rw [h c (by simp)]
    simp only [Bool.false_eq_true, if_neg, if_false]
    rw [ih (fun d hd => h d (List.mem_cons_of_mem _ hd))]

theorem dropWhile_keep {α : Type} (p : α → Bool) (l : List α)
    (h : ∀ c ∈ l, p c = false) : l.dropWhile p = l := by
  cases l with
  | nil => rfl
  | cons c cs =>
    rw [List.dropWhile_cons, h c (by simp)]
    simp

theorem pyStrip_nospace (l : List Char) (h : ∀ c ∈ l, pyIsSpace c = false) :
    pyStrip l = l := by
  unfold pyStrip
  rw [dropWhile_keep _ _ h,
    dropWhile_keep _ _ (fun c hc => h c (List.mem_reverse.mp hc)),
    List.reverse_reverse]

theorem map_toLower_letters (l : List Char)
    (h : ∀ c ∈ l, 97 ≤ c.toNat ∧ c.toNat ≤ 122) : l.map Char.toLower = l := by
  induction l with
  | nil => rfl
  | cons c cs ih =>
    rw [List.map_cons, toLower_lower c (h c (by simp)).1 (h c (by simp)).2,
      ih (fun d hd => h d (List.mem_cons_of_mem _ hd))]

/-- Normalization does not change a run of lowercase ASCII letters. -/
theorem pyNormalize_letters (l : List Char)
    (h : ∀ c ∈ l, 97 ≤ c.toNat ∧ c.toNat ≤ 122) : pyNormalize l = l := by
  have hns : ∀ c ∈ l, pyIsSpace c = false :=
    fun c hc => letter_not_space c (h c hc).1 (h c hc).2
  unfold pyNormalize whitespace_clean basic_clean fix_text html_unescape
  rw [pyStrip_nospace l hns, collapseWsAux_nospace l hns, pyStrip_nospace l hns,
    map_toLower_letters l h]

theorem litAt_ne_head (p : Char) (ps : List Char) (c : Char) (cs : List Char)
    (h : ¬ p.toLower = c.toLower) : litAt (p :: ps) (c :: cs) = none := by
  unfold litAt
  rw [if_neg h]

theorem firstLit_none (ps : List (List Char)) (l : List Char)
    (h : ∀ p ∈ ps, litAt p l = none) : firstLit ps l = none := by
  induction ps with
  | nil => rfl
  | cons p ps ih =>
    show (match litAt p l with
      | some rest => some (l.take p.length, rest)
      | none => firstLit ps l) = none
    rw [h p (by simp)]
    exact ih (fun q hq => h q (List.mem_cons_of_mem _ hq))

theorem not_toLower_eq (p c : Char) (hplow : p.toLower = p) (hclow : c.toLower = c)
    (hne : ¬ p.toNat = c.toNat) : ¬ p.toLower = c.toLower := by
  rw [hplow, hclow]
  intro he
  exact hne (congrArg Char.toNat he)

/-- None of the pattern's literal alternatives matches at a lowercase
letter: they all begin with `<`, an apostrophe, or the stray newline. -/
theorem firstLit_letter (c : Char) (cs : List Char) (h1 : 97 ≤ c.toNat)
    (h2 : c.toNat ≤ 122) : firstLit clipLiterals (c :: cs) = none := by
  have hclow : c.toLower = c := toLower_lower c h1 h2
  apply firstLit_none
  intro p hp
  rcases (by simpa [clipLiterals] using hp :
      p = sot ∨ p = eot ∨ p = apos :: 's' :: [] ∨ p = apos :: 't' :: [] ∨
      p = apos :: 'r' :: 'e' :: [] ∨
      p = '\n' :: List.replicate 8 ' ' ++ (apos :: 'v' :: 'e' :: []) ∨
      p = apos :: 'm' :: [] ∨ p = apos :: 'l' :: 'l' :: [] ∨ p = apos :: 'd' :: [])
    with rfl | rfl | rfl | rfl | rfl | rfl | rfl | rfl | rfl
  · exact litAt_ne_head _ _ _ _ (not_toLower_eq '<' c rfl hclow
      (by rw [show ('<').toNat = 60 from rfl]; omega))
  · exact litAt_ne_head _ _ _ _ (not_toLower_eq '<' c rfl hclow
      (by rw [show ('<').toNat = 60 from rfl]; omega))
  · exact litAt_ne_head _ _ _ _ (not_toLower_eq apos c rfl hclow
      (by rw [show apos.toNat = 39 from rfl]; omega))
  · exact litAt_ne_head _ _ _ _ (not_toLower_eq apos c rfl hclow
      (by rw [show apos.toNat = 39 from rfl]; omega))
  · exact litAt_ne_head _ _ _ _ (not_toLower_eq apos c rfl hclow
      (by rw [show apos.toNat = 39 from rfl]; omega))
  · exact litAt_ne_head _ _ _ _ (not_toLower_eq '\n' c rfl hclow
      (by rw [show ('\n').toNat = 10 from rfl]; omega))
  · exact litAt_ne_head _ _ _ _ (not_toLower_eq apos c rfl hclow
      (by rw [show apos.toNat = 39 from rfl]; omega))
  · exact litAt_ne_head _ _ _ _ (not_toLower_eq apos c rfl hclow
      (by rw [show apos.toNat = 39 from rfl]; omega))
  · exact litAt_ne_head _ _ _ _ (not_toLower_eq apos c rfl hclow
      (by rw [show apos.toNat = 39 from rfl]; omega))

theorem isLetterCh_lower (c : Char) (h1 : 97 ≤ c.toNat) (h2 : c.toNat ≤ 122) :
    isLetterCh c = true := by
  unfold isLetterCh
  simp only [Bool.or_eq_true, Bool.and_eq_true, decide_eq_true_eq]
  omega

theorem matchOne_letters (c : Char) (cs : List Char)
    (hc : 97 ≤ c.toNat ∧ c.toNat ≤ 122)
    (hcs : ∀ d ∈ cs, 97 ≤ d.toNat ∧ d.toNat ≤ 122) :
    matchOne (c :: cs) = some (c :: cs, []) := by
  unfold matchOne
  rw [firstLit_letter c cs hc.1 hc.2]
  show (if isLetterCh c = true then
      some (c :: cs.takeWhile isLetterCh, cs.dropWhile isLetterCh)
    else if isDigitCh c = true then some ([c], cs)
    else if isOtherCh c = true then
      some (c :: cs.takeWhile isOtherCh, cs.dropWhile isOtherCh)
    else none) = some (c :: cs, [])
  rw [if_pos (isLetterCh_lower c hc.1 hc.2)]
  rw [takeWhile_all _ cs (fun d hd => isLetterCh_lower d (hcs d hd).1 (hcs d hd).2),
    dropWhile_all _ cs (fun d hd => isLetterCh_lower d (hcs d hd).1 (hcs d hd).2)]

theorem findAll_letters (t : List Char) (hne : t ≠ [])
    (h : ∀ c ∈ t, 97 ≤ c.toNat ∧ c.toNat ≤ 122) : findAll t = [t] := by
  cases t with
  | nil => exact absurd rfl hne
  | cons c cs =>
    have hm := matchOne_letters c cs (h c (by simp))
      (fun d hd => h d (List.mem_cons_of_mem _ hd))
    rw [findAll_cons, hm]
    rfl

theorem utf8Encode_ascii (l : List Char) (h : ∀ c ∈ l, c.toNat < 128) :
    utf8Encode l = l.map Char.toNat := by
  induction l with
  | nil => rfl
  | cons c cs ih =>
    have hc : utf8EncodeChar c = [c.toNat] := by
      unfold utf8EncodeChar
      rw [if_pos (h c (by simp))]
    show (utf8EncodeChar c ++ (cs.map utf8EncodeChar).flatten) = c.toNat :: cs.map Char.toNat
    rw [hc]
    have := ih (fun d hd => h d (List.mem_cons_of_mem _ hd))
    unfold utf8Encode at this
    rw [this]
    rfl

theorem mapOpt_map_id {α β : Type} (f : β → Option α) (g : α → β) (l : List α)
    (h : ∀ a ∈ l, f (g a) = some a) : mapOpt f (l.map g) = some l := by
  induction l with
  | nil => rfl
  | cons a as ih =>
    show (match f (g a), mapOpt f (as.map g) with
      | some b, some bs => some (b :: bs)
      | _, _ => none) = some (a :: as)
    rw [h a (by simp), ih (fun b hb => h b (List.mem_cons_of_mem _ hb))]

theorem byteEncodeToken_ascii (t : List Char)
    (h : ∀ c ∈ t, 33 ≤ c.toNat ∧ c.toNat ≤ 126) : byteEncodeToken t = some t := by
  unfold byteEncodeToken
  rw [utf8Encode_ascii t (fun c hc => by have := h c hc; omega)]
  apply mapOpt_map_id
  intro c hc
  have hb := byte_encoder_ascii c.toNat (h c hc).1 (h c hc).2
  rwa [Char.ofNat_toNat] at hb

theorem ascii_byteChars (c : Char) (h1 : 33 ≤ c.toNat) (h2 : c.toNat ≤ 126) :
    c ∈ byteChars := by
  have hb := byte_encoder_ascii c.toNat h1 h2
  rw [Char.ofNat_toNat] at hb
  exact mem_byteChars_of_byte_encoder _ _ hb

theorem dictGet_flags0_none (c : Char) (cs : List Char) (h : ¬ c.toNat = 60) :
    dictGet flags0 (c :: cs) = none := by
  unfold flags0
  rw [dictGet_cons, dictGet_cons, dictGet_nil]
  have h1 : ((sot, sot).1 == (c :: cs)) = false := by
    apply beq_eq_false_iff_ne.mpr
    intro he
    have hh : '<' = c := by injection he
    exact h (by rw [← hh]; rfl)
  have h2 : ((eot, eot).1 == (c :: cs)) = false := by
    apply beq_eq_false_iff_ne.mpr
    intro he
    have hh : '<' = c := by injection he
    exact h (by rw [← hh]; rfl)
  rw [h1, h2]
  simp

theorem splitSpace_ne_nil (l : List Char) : splitSpace l ≠ [] := by
  cases l with
  | nil => simp [splitSpace]
  | cons c cs =>
    show (match splitSpace cs with
      | t :: ts => if c = ' ' then [] :: t :: ts else (c :: t) :: ts
      | [] => [[c]]) ≠ []
    cases splitSpace cs with
    | nil => simp
    | cons t ts =>
      show (if c = ' ' then [] :: t :: ts else (c :: t) :: ts) ≠ []
      by_cases hc : c = ' '
      · rw [if_pos hc]; simp
      · rw [if_neg hc]; simp

theorem splitSpace_nospace (x : List Char) (h : ∀ ch ∈ x, ¬ ch = ' ') :
    splitSpace x = [x] := by
  induction x with
  | nil => rfl
  | cons c cs ih =>
    show (match splitSpace cs with
      | t :: ts => if c = ' ' then [] :: t :: ts else (c :: t) :: ts
      | [] => [[c]]) = [c :: cs]
    rw [ih (fun d hd => h d (List.mem_cons_of_mem _ hd))]
    show (if c = ' ' then [] :: cs :: [] else (c :: cs) :: []) = [c :: cs]
    rw [if_neg (h c (by simp))]

theorem splitSpace_append (x r : List Char) (h : ∀ ch ∈ x, ¬ ch = ' ') :
    splitSpace (x ++ ' ' :: r) = x :: splitSpace r := by
  induction x with
  | nil =>
    show (match splitSpace r with
      | t :: ts => if ' ' = ' ' then [] :: t :: ts else (' ' :: t) :: ts
      | [] => [[' ']]) = [] :: splitSpace r
    cases hs : splitSpace r with
    | nil => exact absurd hs (splitSpace_ne_nil r)
    | cons t ts =>
      show (if (' ' : Char) = ' ' then [] :: t :: ts else (' ' :: t) :: ts) = [] :: t :: ts
      rw [if_pos rfl]
  | cons c cs ih =>
    show (match splitSpace (cs ++ ' ' :: r) with
      | t :: ts => if c = ' ' then [] :: t :: ts else (c :: t) :: ts
      | [] => [[c]]) = (c :: cs) :: splitSpace r
    rw [ih (fun d hd => h d (List.mem_cons_of_mem _ hd))]
    show (if c = ' ' then [] :: cs :: splitSpace r else (c :: cs) :: splitSpace r)
      = (c :: cs) :: splitSpace r
    rw [if_neg (h c (by simp))]

theorem splitSpace_intercalate (ws : List (List Char)) (hne : ws ≠ [])
    (h : ∀ s ∈ ws, ∀ ch ∈ s, ¬ ch = ' ') :
    splitSpace (List.intercalate [' '] ws) = ws := by
  induction ws with
  | nil => exact absurd rfl hne
  | cons x ws ih =>
    cases ws with
    | nil =>
      rw [intercalate_single]
      exact splitSpace_nospace x (h x (by simp))
    | cons y ws2 =>
      have hint : List.intercalate [' '] (x :: y :: ws2)
          = x ++ ' ' :: List.intercalate [' '] (y :: ws2) := by
        simp [List.intercalate, List.intersperse]
      rw [hint, splitSpace_append x _ (h x (by simp)),
        ih (by simp) (fun s hs ch hch => h s (List.mem_cons_of_mem _ hs) ch hch)]

theorem mergeOnePass_ne_nil (a b : List Char) (w : List (List Char))
    (h : w ≠ []) : mergeOnePass a b w ≠ [] := by
  match w with
  | [x] => simp [mergeOnePass]
  | x :: y :: rest =>
    have e2 : mergeOnePass a b (x :: y :: rest) =
        if x = a ∧ y = b then (a ++ b) :: mergeOnePass a b rest
        else x :: mergeOnePass a b (y :: rest) := rfl
    rw [e2]
    by_cases hc : x = a ∧ y = b
    · rw [if_pos hc]; simp
    · rw [if_neg hc]; simp

theorem bpeLoopF_ne_nil (rk : List Char × List Char → Option Nat) :
    ∀ fuel w, w ≠ [] → bpeLoopF rk fuel w ≠ [] := by
  intro fuel
  induction fuel with
  | zero => intro w hw; exact hw
  | succ f ih =>
    intro w hw
    show (match bestPair rk (getPairs w) with
      | none => w
      | some (p, _) =>
        if (mergePass p.1 p.2 w).length = 1 then mergePass p.1 p.2 w
        else bpeLoopF rk f (mergePass p.1 p.2 w)) ≠ []
    cases hb : bestPair rk (getPairs w) with
    | none => exact hw
    | some r =>
      cases r with
      | mk p m =>
        have hmp : mergePass p.1 p.2 w ≠ [] := by
          rw [mergePass_eq_mergeOnePass]
          exact mergeOnePass_ne_nil p.1 p.2 w hw
        show (if (mergePass p.1 p.2 w).length = 1 then mergePass p.1 p.2 w
          else bpeLoopF rk f (mergePass p.1 p.2 w)) ≠ []
        by_cases h1 : (mergePass p.1 p.2 w).length = 1
        · rw [if_pos h1]; exact hmp
        · rw [if_neg h1]; exact ih _ hmp

theorem bpeWord_ne_nil (rk : List Char × List Char → Option Nat) (tk : List Char)
    (hne : tk ≠ []) : bpeWord rk tk ≠ [] := by
  unfold bpeWord
  by_cases hp : getPairs (initWord tk) = []
  · rw [if_pos hp]; simp
  · rw [if_neg hp]
    apply bpeLoopF_ne_nil
    intro hw
    rw [hw] at hp
    exact hp rfl

theorem initWord_ne_nil (tk : List Char) (hne : tk ≠ []) : initWord tk ≠ [] := by
  intro hw
  have := initWord_length tk
  rw [hw] at this
  cases tk with
  | nil => exact hne rfl
  | cons c cs => simp at this

theorem endw_ascii : ∀ c ∈ endw, 33 ≤ c.toNat ∧ c.toNat ≤ 126 := by decide

theorem bpeWord_flatten (rk : List Char × List Char → Option Nat) (tk : List Char)
    (hne : tk ≠ []) : (bpeWord rk tk).flatten = tk ++ endw := by
  unfold bpeWord
  by_cases hp : getPairs (initWord tk) = []
  · rw [if_pos hp]
    simp
  · rw [if_neg hp]
    show (bpeLoopF rk (initWord tk).length (initWord tk)).flatten = tk ++ endw
    rw [bpeLoopF_flatten, initWord_flatten tk hne]

/-- Symbols of the merge output contain no space character (for
letter-run tokens), so the `' '.join` / `.split(' ')` pair is lossless. -/
theorem bpeWord_nospace (rk : List Char × List Char → Option Nat) (tk : List Char)
    (hne : tk ≠ []) (h : ∀ c ∈ tk, ¬ c.toNat = 32) :
    ∀ s ∈ bpeWord rk tk, ∀ ch ∈ s, ¬ ch = ' ' := by
  intro s hs
  unfold bpeWord at hs
  have hinit : ∀ s₀ ∈ initWord tk, ∀ ch ∈ s₀, ¬ ch = ' ' := by
    intro s₀ hs₀ ch hch
    rcases mem_initWord tk s₀ hs₀ with ⟨c, hc, rfl⟩ | ⟨c, hc, rfl⟩
    · have : ch = c := List.mem_singleton.mp hch
      subst this
      intro he
      exact h ch hc (by rw [he]; rfl)
    · rcases List.mem_cons.mp hch with rfl | hch2
      · intro he
        exact h ch hc (by rw [he]; rfl)
      · intro he
        have := endw_ascii ch hch2
        rw [he] at this
        have h32 : (' ').toNat = 32 := rfl
        omega
  by_cases hp : getPairs (initWord tk) = []
  · rw [if_pos hp] at hs
    have hse : s = tk ++ endw := by simpa using hs
    subst hse
    intro ch hch
    rcases List.mem_append.mp hch with hch | hch
    · intro he
      exact h ch hch (by rw [he]; rfl)
    · intro he
      have := endw_ascii ch hch
      rw [he] at this
      have h32 : (' ').toNat = 32 := rfl
      omega
  · rw [if_neg hp] at hs
    refine bpeLoopF_invariant rk (fun s₀ => ∀ ch ∈ s₀, ¬ ch = ' ') ?_ _ _ hinit s hs
    intro a b n _ ha hb ch hch
    rcases List.mem_append.mp hch with hch | hch
    · exact ha ch hch
    · exact hb ch hch

theorem mapOpt_of_forall₂ {α β : Type} (f : α → Option β) (l : List α)
    (out : List β) (h : List.Forall₂ (fun a b => f a = some b) l out) :
    mapOpt f l = some out := by
  induction h with
  | nil => rfl
  | cons hab hrest ih =>
    show (match f _, mapOpt f _ with
      | some b, some bs => some (b :: bs)
      | _, _ => none) = _
    rw [hab, ih]

theorem mapOpt_byte_decoder_ascii (l : List Char)
    (h : ∀ c ∈ l, 33 ≤ c.toNat ∧ c.toNat ≤ 126) :
    mapOpt (fun c => dictGet byte_decoder c) l = some (l.map Char.toNat) := by
  induction l with
  | nil => rfl
  | cons c cs ih =>
    have hb := byte_decoder_ascii c.toNat (h c (by simp)).1 (h c (by simp)).2
    rw [Char.ofNat_toNat] at hb
    rw [mapOpt_cons, hb, ih (fun d hd => h d (List.mem_cons_of_mem _ hd))]
    rfl

theorem utf8DecodeReplaceF_ascii : ∀ fuel (l : List Char), l.length ≤ fuel →
    (∀ c ∈ l, c.toNat < 128) → utf8DecodeReplaceF fuel (l.map Char.toNat) = l := by
  intro fuel
  induction fuel with
  | zero =>
    intro l h1 _
    have : l = [] := List.length_eq_zero.mp (Nat.le_zero.mp h1)
    subst this
    rfl
  | succ f ih =>
    intro l h1 h2
    cases l with
    | nil => rfl
    | cons c cs =>
      show utf8Step (utf8DecodeReplaceF f) c.toNat (cs.map Char.toNat) = c :: cs
      rw [utf8Step_lt _ _ _ (h2 c (by simp)), Char.ofNat_toNat,
        ih cs (by simp only [List.length_cons] at h1; omega)
          (fun d hd => h2 d (List.mem_cons_of_mem _ hd))]

theorem utf8DecodeReplace_ascii (l : List Char) (h : ∀ c ∈ l, c.toNat < 128) :
    utf8DecodeReplace (l.map Char.toNat) = l := by
  unfold utf8DecodeReplace
  rw [List.length_map]
  exact utf8DecodeReplaceF_ascii l.length l (Nat.le_refl _) h

set_option maxRecDepth 10000 in
theorem replaceAll_endw_base : replaceAll endw [' '] endw = [' '] := by decide

theorem replaceAll_endw (t : List Char) (h : ∀ c ∈ t, ¬ c.toNat = 60) :
    replaceAll endw [' '] (t ++ endw) = t ++ [' '] := by
  induction t with
  | nil => exact replaceAll_endw_base
  | cons c cs ih =>
    rw [List.cons_append, replaceAll_cons]
    have hsw : startsWithSeq endw (c :: (cs ++ endw)) = false := by
      show (('<' == c) && startsWithSeq ('/' :: 'w' :: '>' :: []) (cs ++ endw)) = false
      rw [charBeq_ne '<' c (fun he => h c (by simp) (by rw [← he]; rfl))]
      rfl
    rw [if_neg (fun hcond => absurd hcond.2 (by rw [hsw]; simp))]
    rw [ih (fun d hd => h d (List.mem_cons_of_mem _ hd))]
    simp

/-- The round-trip behaviour of decode∘encode on a letter-run input: the
result is the normalized input with one appended space (the rendered
end-of-word marker), for any merge resource. -/
theorem roundtrip_letters (lines : List (List Char)) (t : List Char) (hne : t ≠ [])
    (h : ∀ c ∈ t, 97 ≤ c.toNat ∧ c.toNat ≤ 122) :
    pyNormalize t = t ∧
    ∃ ids, pyEncode lines t = some ids ∧
      pyDecode lines ids = some (t ++ [' ']) := by
  have hnorm : pyNormalize t = t := pyNormalize_letters t h
  refine ⟨hnorm, ?_⟩
  have hfind : findAll t = [t] := findAll_letters t hne h
  have hmiss : dictGet flags0 t = none := by
    cases t with
    | nil => exact absurd rfl hne
    | cons c cs =>
      exact dictGet_flags0_none c cs (by have := h c (by simp); omega)
  have hascii : ∀ c ∈ t, 33 ≤ c.toNat ∧ c.toNat ≤ 126 := by
    intro c hc
    have := h c hc
    omega
  have hbet : byteEncodeToken t = some t := byteEncodeToken_ascii t hascii
  have halg1 : (tokenizeAlg flags0 (rankFn lines) t).1 = tokenizeCore (rankFn lines) t :=
    tokenizeAlg_miss _ _ _ hmiss
  have henc : pyTokenizeText lines t
      = some (splitSpace (tokenizeAlg flags0 (rankFn lines) t).1) := by
    unfold pyTokenizeText
    rw [hnorm, hfind]
    show (match byteEncodeToken t with
      | none => none
      | some bt =>
        match encodeTokens (rankFn lines) (tokenizeAlg flags0 (rankFn lines) bt).2 [] with
        | none => none
        | some rest => some (splitSpace (tokenizeAlg flags0 (rankFn lines) bt).1 ++ rest))
      = some (splitSpace (tokenizeAlg flags0 (rankFn lines) t).1)
    rw [hbet]
    show some (splitSpace (tokenizeAlg flags0 (rankFn lines) t).1 ++ []) = _
    rw [List.append_nil]
  have hnospace : ∀ s ∈ bpeWord (rankFn lines) t, ∀ ch ∈ s, ¬ ch = ' ' :=
    bpeWord_nospace (rankFn lines) t hne
      (fun c hc => by have := h c hc; omega)
  have hsplit : splitSpace (tokenizeCore (rankFn lines) t) = bpeWord (rankFn lines) t := by
    rw [tokenizeCore_eq_join_bpeWord]
    exact splitSpace_intercalate _ (bpeWord_ne_nil (rankFn lines) t hne) hnospace
  have hmemv : ∀ s ∈ bpeWord (rankFn lines) t, s ∈ vocabOf lines :=
    bpeWord_mem_vocab lines t hne
      (fun c hc => ascii_byteChars c (hascii c hc).1 (hascii c hc).2)
  have hesome : ∀ s ∈ bpeWord (rankFn lines) t,
      ((fun s => dictGet (encoderOf lines) s) s).isSome :=
    fun s hs => encoder_isSome lines s (hmemv s hs)
  obtain ⟨ids, hids⟩ := Option.isSome_iff_exists.mp (mapOpt_isSome _ _ hesome)
  refine ⟨ids, ?_, ?_⟩
  · unfold pyEncode
    rw [henc]
    show mapOpt (fun s => dictGet (encoderOf lines) s)
      (splitSpace (tokenizeAlg flags0 (rankFn lines) t).1) = some ids
    rw [halg1, hsplit]
    exact hids
  · have hf2 := mapOpt_forall₂ _ _ _ hids
    have hdecmap : mapOpt (fun i => dictGet (decoderOf lines) i) ids
        = some (bpeWord (rankFn lines) t) := by
      apply mapOpt_of_forall₂
      exact List.Forall₂.imp
        (fun i s hr => decoder_of_encoder lines s i hr) hf2.flip
    unfold pyDecode
    rw [hdecmap]
    show (match mapOpt (fun c => dictGet byte_decoder c)
        (bpeWord (rankFn lines) t).flatten with
      | none => none
      | some bytes => some (replaceAll endw [' '] (utf8DecodeReplace bytes)))
      = some (t ++ [' '])
    rw [bpeWord_flatten (rankFn lines) t hne]
    have hall : ∀ c ∈ t ++ endw, 33 ≤ c.toNat ∧ c.toNat ≤ 126 := by
      intro c hc
      rcases List.mem_append.mp hc with hc | hc
      · exact hascii c hc
      · exact endw_ascii c hc
    rw [mapOpt_byte_decoder_ascii _ hall]
    show some (replaceAll endw [' ']
      (utf8DecodeReplace ((t ++ endw).map Char.toNat))) = some (t ++ [' '])
    rw [utf8DecodeReplace_ascii _ (fun c hc => by have := hall c hc; omega)]
    rw [replaceAll_endw t (fun c hc => by have := h c hc; omega)]


/-- C2 counterexample: on the input `"a"` — which normalizes to itself and
needs no UTF-8 substitution, so it satisfies the claim's hypotheses —
decode∘encode yields `"a "`: every token is rendered with its end-of-word
marker turned into a space.  That differs from the normalized input, so
the claimed round-trip equality `decode(encode(normalize(t))) ==
normalize(t)` is false. -/
theorem claim_C2_counterexample :
    pyNormalize ('a' :: []) = 'a' :: [] ∧
    (pyEncode linesT ('a' :: [])).bind (pyDecode linesT)
      = some ('a' :: ' ' :: []) ∧
    ¬ ('a' :: ' ' :: []) = ('a' :: []) := by
  have hc := roundtrip_letters linesT ('a' :: []) (by simp) (by decide)
  obtain ⟨ids, he, hd⟩ := hc.2
  refine ⟨hc.1, ?_, by simp⟩
  rw [he]
  exact hd

/-- C2 (amended): decode∘encode appends the end-of-word space after each
pretoken; for every merge resource and every input `t` that normalizes to
a single nonempty run of lowercase ASCII letters,
`decode(encode(normalize(t))) = normalize(t) ++ " "`. -/
theorem claim_C2 (lines : List (List Char)) (t : List Char) (hne : t ≠ [])
    (h : ∀ c ∈ t, 97 ≤ c.toNat ∧ c.toNat ≤ 122) :
    pyNormalize t = t ∧
    ∃ ids, pyEncode lines t = some ids ∧
      pyDecode lines ids = some (t ++ [' ']) :=
  roundtrip_letters lines t hne h

/-- Witness for C2 (amended) at the input `"ab"` with the minimal
resource. -/
theorem claim_C2_witness :
    ('a' :: 'b' :: []) ≠ [] ∧
    (∀ c ∈ ('a' :: 'b' :: []), 97 ≤ c.toNat ∧ c.toNat ≤ 122) ∧
    (pyNormalize ('a' :: 'b' :: []) = 'a' :: 'b' :: [] ∧
      ∃ ids, pyEncode linesT ('a' :: 'b' :: []) = some ids ∧
        pyDecode linesT ids = some ('a' :: 'b' :: ' ' :: [])) :=
  ⟨by simp, by decide, claim_C2 linesT ('a' :: 'b' :: []) (by simp) (by decide)⟩

/-! ## Claim C3 -/

set_option maxRecDepth 100000 in
set_option maxHeartbeats 2000000 in
theorem byte_roundtrip_all : (List.range 256).all (fun b =>
    match dictGet byte_encoder b with
    | some c => dictGet (byte_encoder.map (fun p => (p.2, p.1))) c == some b
    | none => false) = true := by decide

/-- C3: the byte-to-unicode codec is total and bijective: every byte value
0..255 has a defined image, and the inverse table applied to the image
yields the byte back (`byte_decoder[byte_encoder[b]] == b`). -/
theorem claim_C3 (b : Nat) (hb : b < 256) :
    ∃ c : Char, dictGet byte_encoder b = some c ∧ dictGet byte_decoder c = some b := by
  have hmem : b ∈ List.range 256 := List.mem_range.mpr hb
  have hall := List.all_eq_true.mp byte_roundtrip_all b hmem
  cases he : dictGet byte_encoder b with
  | none =>
    rw [he] at hall
    have hfalse : false = true := hall
    simp at hfalse
  | some c =>
    rw [he] at hall
    have hall2 : (dictGet (byte_encoder.map (fun p => (p.2, p.1))) c == some b)
        = true := hall
    refine ⟨c, rfl, ?_⟩
    rw [byte_decoder_eq]
    exact eq_of_beq hall2

/-- Witness for C3, at byte 200 (a non-printable byte, remapped above 255). -/
theorem claim_C3_witness : 200 < 256 ∧
    ∃ c : Char, dictGet byte_encoder 200 = some c ∧ dictGet byte_decoder c = some 200 :=
  ⟨by omega, claim_C3 200 (by omega)⟩

/-! ## Claim C10 -/

/-- C10: an input whose normalization is empty (empty or whitespace-only
text) tokenizes to the empty token list rather than raising, and
`ValueError` is raised exactly on non-string inputs. -/
theorem claim_C10 (lines : List (List Char)) (s : List Char)
    (h : pyNormalize s = []) :
    clipTokenize lines (.str s) = .ok [] ∧
      (∀ v : PyVal, clipTokenize lines v = .error .valueError ↔ v = .nonStr) := by
  constructor
  · show (match pyTokenizeText lines s with
      | some toks => (Except.ok toks : Except PyErr (List (List Char)))
      | none => Except.error PyErr.keyError) = Except.ok []
    unfold pyTokenizeText
    rw [h]
    rfl
  · intro v
    cases v with
    | str t =>
      show (match pyTokenizeText lines t with
        | some toks => (Except.ok toks : Except PyErr (List (List Char)))
        | none => Except.error PyErr.keyError) = Except.error PyErr.valueError
        ↔ PyVal.str t = PyVal.nonStr
      cases hpt : pyTokenizeText lines t with
      | some toks => simp
      | none => simp
    | nonStr => simp [clipTokenize]

/-- Witness for C10: a whitespace-only input. -/
theorem claim_C10_witness : pyNormalize (' ' :: []) = [] ∧
    (clipTokenize linesT (.str (' ' :: [])) = .ok [] ∧
      (∀ v : PyVal, clipTokenize linesT v = .error .valueError ↔ v = .nonStr)) :=
  ⟨rfl, claim_C10 linesT (' ' :: []) rfl⟩

/-! ## Claim C5 -/

set_option maxRecDepth 1000000 in
set_option maxHeartbeats 2000000 in
theorem pyTokenizeText_eot (lines : List (List Char)) :
    pyTokenizeText lines eot = some [eot] := rfl

set_option maxRecDepth 1000000 in
set_option maxHeartbeats 2000000 in
theorem pyTokenizeText_sot (lines : List (List Char)) :
    pyTokenizeText lines sot = some [sot] := rfl

/-- C5: encoding a declared special token yields exactly its reserved id —
the token's fixed position at the end of the vocabulary — and the token is
never subjected to merging: `tokenize_alg` answers it from `flag_dict`
for any rank table, leaving the cache unchanged. -/
theorem claim_C5 (lines : List (List Char)) :
    pyEncode lines eot = some [(vocabOf lines).length - 1] ∧
    pyEncode lines sot = some [(vocabOf lines).length - 2] ∧
    (∀ rk : List Char × List Char → Option Nat,
      tokenizeAlg flags0 rk eot = (eot, flags0) ∧
      tokenizeAlg flags0 rk sot = (sot, flags0)) := by
  refine ⟨?_, ?_, ?_⟩
  · unfold pyEncode
    rw [pyTokenizeText_eot]
    show mapOpt (fun s => dictGet (encoderOf lines) s) [eot] = _
    simp only [mapOpt, encoder_eot]
  · unfold pyEncode
    rw [pyTokenizeText_sot]
    show mapOpt (fun s => dictGet (encoderOf lines) s) [sot] = _
    simp only [mapOpt, encoder_sot]
  · intro rk
    exact ⟨rfl, rfl⟩

/-! ## Claim C6 (corrected) -/

/-- C6 counterexample: the claim asserts that after a first call on a
non-special token the merged result is stored in the cache ("the second
call returns the stored value").  A single-character token such as `'a'`
takes the `if not pairs: return input_tk+'</w>'` shortcut, which returns
without storing anything: the cache is unchanged and still has no entry
for the token, so the claim as stated is false. -/
theorem claim_C6_counterexample :
    (tokenizeAlg flags0 (rankFn linesT) ('a' :: [])).2 = flags0 ∧
    ¬ (dictGet (tokenizeAlg flags0 (rankFn linesT) ('a' :: [])).2 ('a' :: [])
        = some (tokenizeAlg flags0 (rankFn linesT) ('a' :: [])).1) := by
  exact ⟨rfl, by decide⟩

/-- C6 (amended to tokens of at least two characters, the only ones that
reach the merge loop and the cache): the first call's result equals the
cache-free merge computation, that result is stored under the token, and a
repeated call returns the stored value with the cache unchanged and without
re-running the merge loop — its result does not depend on the rank table. -/
theorem claim_C6 (flags : List (List Char × List Char))
    (rk : List Char × List Char → Option Nat) (tk : List Char)
    (hmiss : dictGet flags tk = none) (hlen : 2 ≤ tk.length) :
    (tokenizeAlg flags rk tk).1 = tokenizeCore rk tk ∧
    dictGet (tokenizeAlg flags rk tk).2 tk = some (tokenizeAlg flags rk tk).1 ∧
    (∀ rk2 : List Char × List Char → Option Nat,
      tokenizeAlg (tokenizeAlg flags rk tk).2 rk2 tk =
        ((tokenizeAlg flags rk tk).1, (tokenizeAlg flags rk tk).2)) := by
  have hp : ¬ getPairs (initWord tk) = [] := by
    apply getPairs_ne_nil
    rw [initWord_length]
    exact hlen
  have halg : tokenizeAlg flags rk tk =
      (List.intercalate [' '] (bpeLoop rk (initWord tk)),
       dictInsert flags tk (List.intercalate [' '] (bpeLoop rk (initWord tk)))) := by
    unfold tokenizeAlg
    rw [hmiss]
    rw [if_neg hp]
  have hcore : tokenizeCore rk tk = List.intercalate [' '] (bpeLoop rk (initWord tk)) := by
    unfold tokenizeCore
    rw [if_neg hp]
  refine ⟨?_, ?_, ?_⟩
  · rw [halg, hcore]
  · rw [halg]
    show dictGet (dictInsert flags tk _) tk = _
    rw [dictGet_dictInsert]
    simp
  · intro rk2
    rw [halg]
    show tokenizeAlg (dictInsert flags tk _) rk2 tk = _
    unfold tokenizeAlg
    rw [dictGet_dictInsert]
    simp

/-- Witness for C6 at the two-character token `'ab'` with the minimal
resource. -/
theorem claim_C6_witness :
    dictGet flags0 ('a' :: 'b' :: []) = none ∧ 2 ≤ ('a' :: 'b' :: []).length ∧
    ((tokenizeAlg flags0 (rankFn linesT) ('a' :: 'b' :: [])).1
        = tokenizeCore (rankFn linesT) ('a' :: 'b' :: []) ∧
      dictGet (tokenizeAlg flags0 (rankFn linesT) ('a' :: 'b' :: [])).2 ('a' :: 'b' :: [])
        = some (tokenizeAlg flags0 (rankFn linesT) ('a' :: 'b' :: [])).1 ∧
      (∀ rk2 : List Char × List Char → Option Nat,
        tokenizeAlg (tokenizeAlg flags0 (rankFn linesT) ('a' :: 'b' :: [])).2 rk2
            ('a' :: 'b' :: []) =
          ((tokenizeAlg flags0 (rankFn linesT) ('a' :: 'b' :: [])).1,
           (tokenizeAlg flags0 (rankFn linesT) ('a' :: 'b' :: [])).2))) :=
  ⟨rfl, by decide, claim_C6 flags0 (rankFn linesT) ('a' :: 'b' :: []) rfl (by decide)⟩

/-! ## Claim C1 -/

/-- The merge engine as the spec words it: repeatedly compute the adjacent
pairs of the current word, select the lowest-ranked pair, terminate when no
candidate pair is ranked, rewrite with the one-pass greedy non-overlapping
merge, repeat until a single symbol remains; join the result with the space
separator. -/
def tokenizeSpec (rk : List Char × List Char → Option Nat) (tk : List Char) :
    List Char :=
  List.intercalate [' '] (bpeLoopSpec rk (initWord tk))

/-- C1: on every cache-miss input token, `tokenize_alg` computes exactly
the spec's description of the merge loop (lowest-ranked pair first,
one-pass left-to-right non-overlapping rewrite resuming at `i + 2` after a
merge, until no ranked pair or a single symbol remains, joined by spaces).
The source's early `if not pairs` return is absorbed: it coincides with
the loop's immediate exit on single-symbol words. -/
theorem claim_C1 (flags : List (List Char × List Char))
    (rk : List Char × List Char → Option Nat) (tk : List Char)
    (hmiss : dictGet flags tk = none) (hne : tk ≠ []) :
    (tokenizeAlg flags rk tk).1 = tokenizeSpec rk tk := by
  rw [tokenizeAlg_miss flags rk tk hmiss]
  unfold tokenizeCore tokenizeSpec
  by_cases hp : getPairs (initWord tk) = []
  · rw [if_pos hp]
    rw [initWord_singleton tk hne hp]
    have hloop : bpeLoopSpec rk [tk ++ endw] = [tk ++ endw] := rfl
    rw [hloop, intercalate_single]
  · rw [if_neg hp, bpeLoop_eq_bpeLoopSpec]

/-- Witness for C1 at the token `'ab'` with the minimal resource. -/
theorem claim_C1_witness :
    dictGet flags0 ('a' :: 'b' :: []) = none ∧ ('a' :: 'b' :: []) ≠ [] ∧
    (tokenizeAlg flags0 (rankFn linesT) ('a' :: 'b' :: [])).1
      = tokenizeSpec (rankFn linesT) ('a' :: 'b' :: []) :=
  ⟨rfl, by simp, claim_C1 flags0 (rankFn linesT) ('a' :: 'b' :: []) rfl (by simp)⟩

/-! ## Claim C9 (corrected) -/

theorem pySplitWsF_nil (fuel : Nat) : pySplitWsF fuel [] = [] := by
  cases fuel with
  | zero => rfl
  | succ f => rfl

/-- A nonempty all-non-whitespace line splits into itself alone. -/
theorem pySplitWs_nonspace (l : List Char) (hne : l ≠ [])
    (h : ∀ c ∈ l, pyIsSpace c = false) : pySplitWs l = [l] := by
  cases l with
  | nil => exact absurd rfl hne
  | cons c cs =>
    have hc : pyIsSpace c = false := h c (by simp)
    show (if pyIsSpace c then pySplitWsF cs.length cs
      else (c :: cs.takeWhile (fun d => !pyIsSpace d)) ::
        pySplitWsF cs.length (cs.dropWhile (fun d => !pyIsSpace d))) = [c :: cs]
    rw [hc]
    simp only [Bool.false_eq_true, if_neg, if_false]
    have ht : cs.takeWhile (fun d => !pyIsSpace d) = cs :=
      takeWhile_all _ cs (fun a ha => by
        rw [h a (List.mem_cons_of_mem _ ha)]; rfl)
    have hd : cs.dropWhile (fun d => !pyIsSpace d) = [] :=
      dropWhile_all _ cs (fun a ha => by
        rw [h a (List.mem_cons_of_mem _ ha)]; rfl)
    rw [ht, hd, pySplitWsF_nil]

/-- The witness resource: a header line followed by 48894 pairwise distinct
(unary-encoded) merge lines. -/
def lines9w : List (List Char) :=
  ('h' :: []) :: (List.range 48894).map (fun n => List.replicate (n + 1) 'a')

theorem merges9w : mergesOf lines9w
    = (List.range 48894).map (fun n => [List.replicate (n + 1) 'a']) := by
  unfold mergesOf lines9w
  rw [List.drop_succ_cons, List.drop_zero]
  rw [List.take_of_length_le (by simp [List.length_map, List.length_range])]
  rw [List.map_map]
  apply List.map_congr_left
  intro n hn
  show pySplitWs (List.replicate (n + 1) 'a') = [List.replicate (n + 1) 'a']
  apply pySplitWs_nonspace
  · intro hcon
    have := congrArg List.length hcon
    simp at this
  · intro c hc
    rw [List.eq_of_mem_replicate hc]
    rfl

theorem merges9w_nodup : (mergesOf lines9w).Nodup := by
  rw [merges9w]
  refine (List.nodup_range 48894).map ?_
  intro m n hmn
  simp only [List.cons.injEq, and_true] at hmn
  have := congrArg List.length hmn
  simp only [List.length_replicate] at this
  omega

theorem lines9w_length : lines9w.length = 48895 := by
  unfold lines9w
  rw [List.length_cons, List.length_map, List.length_range]

/-- C9 counterexample: with a resource of 48895 lines (more than enough),
the built vocabulary has 49408 entries — 256 base byte symbols, 256
end-of-word byte symbols, 48894 merge symbols and 2 special tokens — not
the 49152 the claim states (the count in the claim omits the 256
end-of-word byte symbols). -/
theorem claim_C9_counterexample :
    48895 ≤ lines9w.length ∧ (vocabOf lines9w).length = 49408 ∧
      ¬ (vocabOf lines9w).length = 49152 := by
  have hm : (mergesOf lines9w).length = 48894 := by
    rw [merges9w, List.length_map, List.length_range]
  have hv := vocabOf_length lines9w
  rw [hm] at hv
  refine ⟨by rw [lines9w_length], by omega, by omega⟩

/-- C9 (amended): given a merge resource with at least 48895 lines whose
retained merge rules are pairwise distinct, construction skips the first
(header) line and builds the pair-rank table from the fixed 48894-line
prefix of the remaining lines with rank equal to list position; the
resulting vocabulary (256 base byte-symbols, their 256 end-of-word
variants, the derived merge-symbols, and the two special tokens) totals
49408 — not 49152, which would be the count without the end-of-word
variants. -/
theorem claim_C9 (lines : List (List Char)) (h1 : 48895 ≤ lines.length)
    (h2 : (mergesOf lines).Nodup) :
    mergesOf lines = ((lines.drop 1).take 48894).map pySplitWs ∧
    (mergesOf lines).length = 48894 ∧
    (∀ i, ∀ hi : i < (mergesOf lines).length,
      dictGet (bpeRanksOf lines) ((mergesOf lines).get ⟨i, hi⟩) = some i) ∧
    (vocabOf lines).length = 49408 := by
  have hm : (mergesOf lines).length = 48894 := by
    unfold mergesOf
    rw [List.length_map, List.length_take, List.length_drop]
    omega
  have hkeys : (keysOf ((mergesOf lines).zip
      (List.range (mergesOf lines).length))).Nodup := by
    rw [keysOf_zip_range]
    exact h2
  refine ⟨rfl, hm, ?_, ?_⟩
  · intro i hi
    unfold bpeRanksOf
    rw [dictOf_of_nodup_keys _ hkeys]
    apply dictGet_of_mem_of_nodup _ _ _ _ hkeys
    have hzlen : i < ((mergesOf lines).zip
        (List.range (mergesOf lines).length)).length := by
      rw [List.length_zip, List.length_range]
      omega
    apply List.mem_iff_getElem.mpr
    refine ⟨i, hzlen, ?_⟩
    rw [List.getElem_zip, List.getElem_range]
    rw [List.get_eq_getElem]
  · rw [vocabOf_length, hm]

/-- Witness for C9 at the concrete 48895-line resource. -/
theorem claim_C9_witness :
    48895 ≤ lines9w.length ∧ (mergesOf lines9w).Nodup ∧
      (mergesOf lines9w).length = 48894 ∧ (vocabOf lines9w).length = 49408 := by
  have h1 : 48895 ≤ lines9w.length := by rw [lines9w_length]
  have hc := claim_C9 lines9w h1 merges9w_nodup
  exact ⟨h1, merges9w_nodup, hc.2.1, hc.2.2.2⟩

/-! ## Claim C8 (code bug) -/

/-- C8: the pattern source wraps onto a second line inside a raw
triple-quoted string without `re.X`, so the contraction branch for `'ve` is
actually `newline + 8 spaces + 've`; whitespace-cleaned content never
contains a newline, so that branch is dead.  On the normalized input
`we've` the scanner therefore emits `we`, `'`, `ve` — not the `'ve` suffix
token the spec (and the pattern's visible intent) promises. -/
theorem claim_C8 :
    pyNormalize ('w' :: 'e' :: apos :: 'v' :: 'e' :: [])
      = 'w' :: 'e' :: apos :: 'v' :: 'e' :: [] ∧
    findAll ('w' :: 'e' :: apos :: 'v' :: 'e' :: [])
      = [['w', 'e'], [apos], ['v', 'e']] ∧
    findAll ('w' :: 'e' :: apos :: 'v' :: 'e' :: [])
      ≠ [['w', 'e'], apos :: 'v' :: 'e' :: []] := by
  refine ⟨by decide, by decide, by decide⟩

end ClipTok
